import Mathlib

/-!
# one-time-pad: the client `otp.c` and the daemon `otp_d.c`

A shallow embedding of the cipher loops, the client's post-mode front end, the
`sendAll`/`recvAll` retry loops, the daemon's get and post handling with its
mode dispatch, and the daemon's accept loop with its `SIGCHLD` handler,
followed by the properties proved about them.

Conventions of the embedding.

* A C `char` is an `Int` (its numeric value); a buffer is a `List Int`, indexed
  with `getD _ 0` (index `size` of every buffer holds the terminating `'\0'`).
* A value stored into a `char` goes through `toChar` (8-bit two's complement,
  the x86-64 Linux ABI the program was written for).
* Loop counters are mathematical naturals: line lengths stay below `2^31`.
-/

namespace OTP

/-! ## Cipher transform (otp.c) -/

/-- Value held by a `char` after the `int` value `x` is stored into it. -/
def toChar (x : Int) : Int := (x + 128) % 256 - 128

/-- The test of the validation loops (otp.c 119, 125, 186; otp_d.c 245):
`(c < 65 || c > 90) && c != 32`. -/
def badChar (c : Int) : Bool := (decide (c < 65) || decide (c > 90)) && decide (c ≠ 32)

/-- One iteration of the post-mode loop, otp.c lines 142-156, on the plaintext
character `p` and the key character `k`. -/
def encodeChar (p k : Int) : Int :=
  if k = 32 then p
  else if p = 32 then k
  else
    let c0 := toChar (p + k - 64)
    let c1 := if c0 > 90 then toChar (Int.tmod c0 91 + 64) else c0
    if c1 = 64 then 32 else c1

/-- The post-mode loop, otp.c lines 141-157: `ciphertext[i]` for every
`i < plaintextSize`, where `plaintextSize` is the length of the plaintext. -/
def encode (plaintext key : List Int) : List Int :=
  (List.range plaintext.length).map
    (fun i => encodeChar (plaintext.getD i 0) (key.getD i 0))

/-- One iteration of the get-mode loop, otp.c lines 300-314, on the ciphertext
character `c` and the key character `k`. -/
def decodeChar (c k : Int) : Int :=
  if k = 32 then c
  else if c = 32 then toChar (91 - (k - 64))
  else
    let p0 := toChar (c - k + 64)
    let p1 := if p0 < 64 then toChar (p0 + 27) else p0
    if p1 = 64 then 32 else p1

/-- The get-mode loop, otp.c lines 299-315: `plaintext[i]` for every
`i < ciphertextSize`. -/
def decode (ciphertext key : List Int) : List Int :=
  (List.range ciphertext.length).map
    (fun i => decodeChar (ciphertext.getD i 0) (key.getD i 0))

/-! ### The 27-symbol reference, in the words of the specification -/

/-- A symbol of the alphabet: a space or a letter `'A'..'Z'`. -/
def inAlphabet (c : Int) : Prop := c = 32 ∨ (65 ≤ c ∧ c ≤ 90)

instance (c : Int) : Decidable (inAlphabet c) := by
  unfold inAlphabet; infer_instance

/-- Alphabet mapping of the specification: space is 0, `'A'..'Z'` are 1..26. -/
def symVal (c : Int) : Int := if c = 32 then 0 else c - 64

/-- The alphabet symbol of a value in 0..26 (inverse of `symVal`). -/
def valSym (v : Int) : Int := if v = 0 then 32 else v + 64

/-- Reference encoding of one symbol: addition of the values modulo 27. -/
def refEncodeChar (p k : Int) : Int := valSym ((symVal p + symVal k) % 27)

/-- Reference decoding of one symbol: subtraction of the values modulo 27. -/
def refDecodeChar (c k : Int) : Int := valSym ((symVal c - symVal k + 27) % 27)

/-- The `char` values of a string literal (used for concrete scenarios). -/
def ofString (s : String) : List Int := s.toList.map (fun ch => Int.ofNat ch.toNat)

/-! ## Client, post mode (otp.c lines 73-158 and 193-245)

The files named on the command line are given by their contents (`none` when
`fopen` fails). The network is given by the results of the calls the client
makes: `gethostbyname`, `socket`, `connect`, and the result of the `k`-th call
of `sendAll` (the retry loop itself is embedded further down). -/

/-- Bytes of the first line of a stream, the line terminator included. -/
def takeLine : List Int → List Int
  | [] => []
  | c :: cs => if c = 10 then [c] else c :: takeLine cs

/-- The first `getline` on a freshly opened stream: `none` (the call returns -1)
when no byte can be read, else the first line with its terminator. -/
def getline (file : List Int) : Option (List Int) :=
  match file with
  | [] => none
  | c :: cs => some (takeLine (c :: cs))

/-- One field of the wire protocol, as handed to `sendAll`: a single `char`,
a `size_t`, or a run of raw bytes. -/
inductive Frame where
  | byte (c : Int)
  | size (n : Nat)
  | bytes (bs : List Int)
  deriving DecidableEq

/-- What the client does on the network, in order. `sendAll f ok` is one call
of `sendAll` on the field `f` with its Boolean result. -/
inductive NetEvent where
  | socket (ok : Bool)
  | connect (ok : Bool)
  | sendAll (f : Frame) (ok : Bool)
  deriving DecidableEq

/-- Results of the network calls of one client run. -/
structure Net where
  hostFound : Bool
  socketOk : Bool
  connectOk : Bool
  sendOk : Nat → Bool

/-- End state of a client run: exit status, network calls made, and the
ciphertext buffer (`none` while it has not been allocated and filled). -/
structure Outcome where
  exit : Nat
  events : List NetEvent
  ciphertext : Option (List Int)
  deriving DecidableEq

/-- Successive `sendAll` calls, each followed by `error(...)` (exit 1) when it
returns false: the calls made, and whether all of them succeeded. `k` numbers
the calls. -/
def sendFrames (sendOk : Nat → Bool) : Nat → List Frame → List NetEvent × Bool
  | _, [] => ([], true)
  | k, f :: fs =>
    if sendOk k then
      ((NetEvent.sendAll f true) :: (sendFrames sendOk (k + 1) fs).1,
        (sendFrames sendOk (k + 1) fs).2)
    else ([NetEvent.sendAll f false], false)

/-- Lines 193-245 of otp.c in post mode, once the ciphertext is computed:
address set-up, `socket`, `connect`, and the five `sendAll` calls. -/
def postSend (user ciphertext : List Int) (net : Net) : Outcome :=
  if net.hostFound = false then ⟨2, [], some ciphertext⟩
  else if net.socketOk = false then ⟨1, [NetEvent.socket false], some ciphertext⟩
  else if net.connectOk = false then
    ⟨2, [NetEvent.socket true, NetEvent.connect false], some ciphertext⟩
  else
    let r := sendFrames net.sendOk 0
      [Frame.byte 112, Frame.size user.length, Frame.bytes user,
        Frame.size ciphertext.length, Frame.bytes ciphertext]
    ⟨if r.2 then 0 else 1, NetEvent.socket true :: NetEvent.connect true :: r.1,
      some ciphertext⟩

/-- The client in post mode (`otp post user plaintext key port`), otp.c lines
73-158 followed by the network part. `user` is `argv[2]`; `plaintextFile` and
`keyFile` are the contents of the files `argv[3]` and `argv[4]`. -/
def otpPost (user : List Int) (plaintextFile keyFile : Option (List Int)) (net : Net) :
    Outcome :=
  match plaintextFile with
  | none => ⟨1, [], none⟩
  | some pf =>
    match keyFile with
    | none => ⟨1, [], none⟩
    | some kf =>
      match getline pf with
      | none => ⟨1, [], none⟩
      | some pl =>
        match getline kf with
        | none => ⟨1, [], none⟩
        | some kl =>
          if kl.length < pl.length then ⟨1, [], none⟩
          else
            let plaintext := pl.dropLast
            let key := kl.dropLast
            if plaintext.any badChar then ⟨1, [], none⟩
            else if key.any badChar then ⟨1, [], none⟩
            else postSend user (encode plaintext key) net

/-! ## `sendAll` and `recvAll` (otp.c lines 348-384, otp_d.c lines 297-333)

`send k len` is the value returned by the `k`-th call of `send` when asked for
`len` bytes. `length` is a `size_t` (64 bits): `length -= i` wraps. The loop
may run for ever when `send` returns more than it was asked for, so it is run
with fuel: `none` means the fuel ran out. The result is the Boolean returned
and the calls made, each with the length requested and the value returned. -/

/-- Number of values of a `size_t`. -/
def sizeMod : Nat := 2 ^ 64

/-- `sendAll(socket, buffer, length)`, from its `k`-th call of `send` on. -/
def sendAll (send : Nat → Nat → Int) : Nat → Nat → Nat → Option (Bool × List (Nat × Int))
  | 0, length, _ => if length > 0 then none else some (true, [])
  | fuel + 1, length, k =>
    if length > 0 then
      if send k length < 1 then some (false, [(length, send k length)])
      else
        match sendAll send fuel (((length : Int) - send k length) % (sizeMod : Int)).toNat
            (k + 1) with
        | none => none
        | some r => some (r.1, (length, send k length) :: r.2)
    else some (true, [])

/-- `recvAll(socket, buffer, length)`, from its `k`-th call of `recv` on. -/
def recvAll (recv : Nat → Nat → Int) : Nat → Nat → Nat → Option (Bool × List (Nat × Int))
  | 0, length, _ => if length > 0 then none else some (true, [])
  | fuel + 1, length, k =>
    if length > 0 then
      if recv k length < 1 then some (false, [(length, recv k length)])
      else
        match recvAll recv fuel (((length : Int) - recv k length) % (sizeMod : Int)).toNat
            (k + 1) with
        | none => none
        | some r => some (r.1, (length, recv k length) :: r.2)
    else some (true, [])

/-- Bytes moved by a run of calls: the sum of the positive results. -/
def moved (calls : List (Nat × Int)) : Int :=
  (calls.map (fun c => max c.2 0)).sum

/-- The calls are the ones the loop makes on the transport `xfer`, starting
with call number `k` and `len` bytes outstanding: each call asks for all the
bytes still outstanding, its result is what the transport returns to that
request, and the bytes it moved are no longer outstanding at the next call. -/
def followsTransport (xfer : Nat → Nat → Int) : Nat → Nat → List (Nat × Int) → Bool
  | _, _, [] => true
  | k, len, c :: cs =>
    decide (c.1 = len) && decide (c.2 = xfer k len) &&
      followsTransport xfer (k + 1) (len - c.2.toNat) cs

/-! ## Daemon, get mode (otp_d.c lines 180-264)

The working directory is the list of its entries in `readdir` order. A name is
the `char` values of a C string. `opendir` and `stat` are taken to succeed. -/

/-- Value of the `int` variable `timeDiff` after `timeDiff = difftime(...)`
(otp_d.c lines 71 and 200) when `difftime` returns the whole number `x`: `x`
itself when it fits 32 bits, else the value `-2^31` that the conversion
instruction of x86-64 delivers for an operand out of range. -/
def toIntC (x : Int) : Int :=
  if -2147483648 ≤ x ∧ x ≤ 2147483647 then x else -2147483648

/-- A directory entry: `d_name`, `st_mtime` (seconds) and the file contents. -/
structure DirEntry where
  name : List Int
  mtime : Int
  content : List Int
  deriving DecidableEq

/-- The string `"@cipher"` (the variable `infix` of otp_d.c, line 55). -/
def cipherInfix : List Int := ofString "@cipher"

/-- Does `hay` begin with `needle`? -/
def startsWith : List Int → List Int → Bool
  | _, [] => true
  | [], _ :: _ => false
  | h :: hs, n :: ns => decide (h = n) && startsWith hs ns

/-- The test `strstr(hay, needle) != NULL`: `needle` occurs in `hay`. -/
def strstr : List Int → List Int → Bool
  | [], needle => startsWith [] needle
  | h :: hs, needle => startsWith (h :: hs) needle || strstr hs needle

/-- The name built in post mode, otp_d.c line 167:
`snprintf(filename, 50, "%s%s%d", user, infix, pid)`, at most 49 characters. -/
def postFilename (user : List Int) (pid : Nat) : List Int :=
  (user ++ cipherInfix ++ ofString (Nat.repr pid)).take 49

/-- The filter of the scan, otp_d.c line 191:
`strstr(d_name, user) != NULL && strstr(d_name, infix) != NULL`. -/
def matchesUser (user : List Int) (e : DirEntry) : Bool :=
  strstr e.name user && strstr e.name cipherInfix

/-- The variables the directory scan updates. `oldestFile` starts with the
indeterminate contents of the 50-byte stack buffer. -/
structure ScanState where
  oldestTime : Int
  oldestFile : List Int
  foundUserFile : Bool
  deriving DecidableEq

/-- One iteration of the `readdir` loop, otp_d.c lines 189-209. `none` is the
undefined behaviour of `strcpy` into `oldestFile[50]` when the name does not
fit. -/
def scanStep (user : List Int) (time1970 : Int) (st : ScanState) (e : DirEntry) :
    Option ScanState :=
  if matchesUser user e then
    let timeDiff := toIntC (time1970 - e.mtime)
    if timeDiff > st.oldestTime then
      if e.name.length < 50 then some ⟨timeDiff, e.name, true⟩ else none
    else some ⟨st.oldestTime, st.oldestFile, true⟩
  else some st

/-- The `readdir` loop from the state `st` over the remaining entries. -/
def scanFrom (user : List Int) (time1970 : Int) : ScanState → List DirEntry → Option ScanState
  | st, [] => some st
  | st, e :: es =>
    match scanStep user time1970 st e with
    | none => none
    | some st1 => scanFrom user time1970 st1 es

/-- The directory scan of get mode: `oldestTime = 0`, `foundUserFile = false`
and `oldestFile` holding `garbage` on entry. -/
def scan (dir : List DirEntry) (time1970 : Int) (user garbage : List Int) :
    Option ScanState :=
  scanFrom user time1970 ⟨0, garbage, false⟩ dir

/-- End state of a get session of the daemon: exit status of the child, the
fields whose `sendAll` succeeded, and the directory afterwards. -/
structure GetOutcome where
  exit : Nat
  sent : List Frame
  dir : List DirEntry
  deriving DecidableEq

/-- Get mode of the daemon's child, otp_d.c lines 180-264 and 266-274, for the
received username `user`. `sendOk k` is the result of the `k`-th `sendAll`.
`none` is undefined behaviour (see `scanStep`). -/
def handleGet (dir : List DirEntry) (time1970 : Int) (user garbage : List Int)
    (sendOk : Nat → Bool) : Option GetOutcome :=
  match scan dir time1970 user garbage with
  | none => none
  | some st =>
    if st.foundUserFile = true then
      if sendOk 0 = false then some ⟨1, [], dir⟩
      else
        match dir.find? (fun e => decide (e.name = st.oldestFile)) with
        | none => some ⟨1, [Frame.byte 115], dir⟩
        | some e =>
          match getline e.content with
          | none => some ⟨1, [Frame.byte 115], dir⟩
          | some line =>
            let ciphertext := line.dropLast
            if ciphertext.any badChar then some ⟨1, [Frame.byte 115], dir⟩
            else if sendOk 1 = false then some ⟨1, [Frame.byte 115], dir⟩
            else if sendOk 2 = false then
              some ⟨1, [Frame.byte 115, Frame.size ciphertext.length], dir⟩
            else
              some ⟨0, [Frame.byte 115, Frame.size ciphertext.length, Frame.bytes ciphertext],
                dir.eraseP (fun e => decide (e.name = st.oldestFile))⟩
    else
      if sendOk 0 = false then some ⟨1, [], dir⟩
      else some ⟨1, [Frame.byte 102], dir⟩

/-- The status byte the daemon sent, if it sent one. -/
def statusByte (o : GetOutcome) : Option Int :=
  match o.sent with
  | Frame.byte c :: _ => some c
  | _ => none

/-- A record deposited for `user`: its name is the one post mode builds for
`user` and some process id. -/
def isRecordOf (user : List Int) (e : DirEntry) : Prop :=
  ∃ pid : Nat, e.name = postFilename user pid

/-! ## Daemon, post mode and mode dispatch (otp_d.c lines 124-178 and 266-274)

The request is given by what the `recvAll` calls deliver (`none` when a call
returns false). `malloc` is taken to succeed. A new file is listed after the
entries already there (the order of `readdir` is not specified). -/

/-- The C string held by a buffer: the bytes before the first `'\0'`. -/
def cstr (buf : List Int) : List Int := buf.takeWhile (fun c => decide (c ≠ 0))

/-- The directory after `fopen(name, "w")`, the write of `content` and `fclose`
at time `mtime`: an existing file of that name is replaced, else one is added. -/
def writeFile (dir : List DirEntry) (name content : List Int) (mtime : Int) :
    List DirEntry :=
  if dir.any (fun e => decide (e.name = name)) then
    dir.map (fun e => if e.name = name then ⟨name, mtime, content⟩ else e)
  else dir ++ [⟨name, mtime, content⟩]

/-- Post mode of the daemon's child, otp_d.c lines 165-177 and 266-274, for the
username `user` (a C string) and the received buffer `ciphertext`, in the
process `pid` at time `now`. `fopenOk` is whether `fopen` succeeds. The name
is handed to `fopen` as a path: when it holds a `'/'` the file is written in
another directory and the working directory keeps its entries. Nothing is sent
to the client. -/
def handlePost (dir : List DirEntry) (now : Int) (pid : Nat) (user ciphertext : List Int)
    (fopenOk : Bool) : GetOutcome :=
  if fopenOk = false then ⟨1, [], dir⟩
  else if (47 : Int) ∈ postFilename user pid then ⟨0, [], dir⟩
  else ⟨0, [], writeFile dir (postFilename user pid) (cstr ciphertext ++ [10]) now⟩

/-- One session of the daemon's child, otp_d.c lines 124-275. `mode` is the
byte delivered by the first `recvAll`, `user` the username buffer delivered by
the next two, `payload` the ciphertext buffer delivered in post mode. -/
def childSession (dir : List DirEntry) (now : Int) (pid : Nat) (garbage : List Int)
    (mode : Option Int) (user payload : Option (List Int)) (fopenOk : Bool)
    (sendOk : Nat → Bool) : Option GetOutcome :=
  match mode with
  | none => some ⟨1, [], dir⟩
  | some m =>
    match user with
    | none => some ⟨1, [], dir⟩
    | some u =>
      if m = 112 then
        match payload with
        | none => some ⟨1, [], dir⟩
        | some c => some (handlePost dir now pid (cstr u) c fopenOk)
      else handleGet dir now (cstr u) garbage sendOk

/-! ## Daemon, accept loop and `SIGCHLD` handler (otp_d.c lines 106-123,
276-279 and 342-352)

The parent is a transition system. One step is one pass through the body of
the accept loop that finds `numChildPids < 5`, the termination of a child, or
one pass through the body of the handler's `waitpid` loop. The increment in
the loop and the decrement in the handler are taken to be atomic. -/

/-- State of the parent: the counter, the children forked and still running,
and the children terminated and not yet reaped. -/
structure Daemon where
  numChildPids : Int
  running : List Nat
  zombies : List Nat
  deriving DecidableEq

/-- A step of the parent. `accept spawnPid` carries what `fork` returned to the
parent: `none` for -1, else the child's process id. `terminate pid` is the end
of a child by `exit` or by a signal. `reap pid` is `waitpid` returning `pid`. -/
inductive DaemonEvent where
  | accept (spawnPid : Option Nat)
  | terminate (pid : Nat)
  | reap (pid : Nat)
  deriving DecidableEq

/-- The state before the first pass through the loop (`numChildPids = 0`). -/
def daemonStart : Daemon := ⟨0, [], []⟩

/-- One step of the parent; `none` when the step cannot be taken. In the
accept step the parent runs the `else` branch of `if(spawnPid == 0)`, also
when `fork` returned -1. -/
def daemonStep (s : Daemon) : DaemonEvent → Option Daemon
  | DaemonEvent.accept spawnPid =>
    if s.numChildPids < 5 then
      match spawnPid with
      | some pid => some ⟨s.numChildPids + 1, pid :: s.running, s.zombies⟩
      | none => some ⟨s.numChildPids + 1, s.running, s.zombies⟩
    else none
  | DaemonEvent.terminate pid =>
    if pid ∈ s.running then some ⟨s.numChildPids, s.running.erase pid, pid :: s.zombies⟩
    else none
  | DaemonEvent.reap pid =>
    if pid ∈ s.zombies then some ⟨s.numChildPids - 1, s.running, s.zombies.erase pid⟩
    else none

/-- The state after a sequence of steps, `none` when one cannot be taken. -/
def daemonRun : Daemon → List DaemonEvent → Option Daemon
  | s, [] => some s
  | s, ev :: evs =>
    match daemonStep s ev with
    | none => none
    | some s1 => daemonRun s1 evs

/-- Number of passes through the loop in which `fork` returned -1. -/
def failedForks : List DaemonEvent → Nat
  | [] => 0
  | DaemonEvent.accept none :: evs => failedForks evs + 1
  | _ :: evs => failedForks evs

/-! ## Lemmas on the cipher -/

theorem badChar_eq_false_iff (c : Int) : badChar c = false ↔ inAlphabet c := by
  unfold badChar inAlphabet
  by_cases h1 : c < 65 <;> by_cases h2 : c > 90 <;> by_cases h3 : c = 32 <;>
    simp [h1, h2, h3]
  all_goals omega

theorem encodeChar_eq_ref (p k : Int) (hp : inAlphabet p) (hk : inAlphabet k) :
    encodeChar p k = refEncodeChar p k := by
  unfold inAlphabet at hp hk
  unfold encodeChar refEncodeChar valSym symVal toChar
  by_cases hk32 : k = 32
  · subst hk32
    simp only [if_true]
    split_ifs <;> omega
  · by_cases hp32 : p = 32
    · subst hp32
      simp only [hk32, if_false, if_true]
      split_ifs <;> omega
    · have hp0 : 65 ≤ p ∧ p ≤ 90 := by omega
      have hk0 : 65 ≤ k ∧ k ≤ 90 := by omega
      have e0 : (p + k - 64 + 128) % 256 - 128 = p + k - 64 := by omega
      simp only [hk32, hp32, if_false, e0]
      by_cases hgt : p + k - 64 > 90
      · have e1 : Int.tmod (p + k - 64) 91 = (p + k - 64) % 91 :=
          Int.tmod_eq_emod (by omega) (by omega)
        simp only [hgt, if_true, e1]
        split_ifs <;> omega
      · simp only [hgt, if_false]
        split_ifs <;> omega

theorem decodeChar_eq_ref (c k : Int) (hc : inAlphabet c) (hk : inAlphabet k) :
    decodeChar c k = refDecodeChar c k := by
  unfold inAlphabet at hc hk
  unfold decodeChar refDecodeChar valSym symVal toChar
  by_cases hk32 : k = 32
  · subst hk32
    simp only [if_true]
    split_ifs <;> omega
  · by_cases hc32 : c = 32
    · subst hc32
      simp only [hk32, if_false, if_true]
      split_ifs <;> omega
    · simp only [hk32, hc32, if_false]
      split_ifs <;> omega

theorem valSym_inAlphabet (v : Int) : inAlphabet (valSym (v % 27)) := by
  unfold inAlphabet valSym
  split_ifs <;> omega

theorem refEncodeChar_inAlphabet (p k : Int) : inAlphabet (refEncodeChar p k) :=
  valSym_inAlphabet _

theorem refDecodeChar_inAlphabet (c k : Int) : inAlphabet (refDecodeChar c k) :=
  valSym_inAlphabet _

theorem decode_encodeChar (p k : Int) (hp : inAlphabet p) (hk : inAlphabet k) :
    decodeChar (encodeChar p k) k = p := by
  rw [encodeChar_eq_ref p k hp hk,
    decodeChar_eq_ref _ k (refEncodeChar_inAlphabet p k) hk]
  unfold inAlphabet at hp hk
  unfold refDecodeChar refEncodeChar valSym symVal
  split_ifs <;> omega

theorem encode_length (plaintext key : List Int) :
    (encode plaintext key).length = plaintext.length := by
  simp [encode]

theorem decode_length (ciphertext key : List Int) :
    (decode ciphertext key).length = ciphertext.length := by
  simp [decode]

theorem encode_getElem? (plaintext key : List Int) (i : Nat) (hi : i < plaintext.length) :
    (encode plaintext key)[i]? = some (encodeChar (plaintext.getD i 0) (key.getD i 0)) := by
  simp [encode, hi]

theorem decode_getElem? (ciphertext key : List Int) (i : Nat) (hi : i < ciphertext.length) :
    (decode ciphertext key)[i]? = some (decodeChar (ciphertext.getD i 0) (key.getD i 0)) := by
  simp [decode, hi]

theorem getD_mem_of_lt {l : List Int} {i : Nat} (hi : i < l.length) : l.getD i 0 ∈ l := by
  rw [List.getD_eq_getElem l 0 hi]
  exact List.getElem_mem hi

/-- The post-mode loop agrees with the reference symbol by symbol. -/
theorem encode_eq_ref (P K : List Int) (hP : ∀ c ∈ P, inAlphabet c)
    (hK : ∀ c ∈ K, inAlphabet c) (hlen : P.length ≤ K.length) :
    encode P K = (List.range P.length).map
      (fun i => refEncodeChar (P.getD i 0) (K.getD i 0)) := by
  unfold encode
  apply List.map_congr_left
  intro i hi
  have hi1 : i < P.length := List.mem_range.mp hi
  exact encodeChar_eq_ref _ _ (hP _ (getD_mem_of_lt hi1))
    (hK _ (getD_mem_of_lt (Nat.lt_of_lt_of_le hi1 hlen)))

/-- The get-mode loop agrees with the reference symbol by symbol. -/
theorem decode_eq_ref (C K : List Int) (hC : ∀ c ∈ C, inAlphabet c)
    (hK : ∀ c ∈ K, inAlphabet c) (hlen : C.length ≤ K.length) :
    decode C K = (List.range C.length).map
      (fun i => refDecodeChar (C.getD i 0) (K.getD i 0)) := by
  unfold decode
  apply List.map_congr_left
  intro i hi
  have hi1 : i < C.length := List.mem_range.mp hi
  exact decodeChar_eq_ref _ _ (hC _ (getD_mem_of_lt hi1))
    (hK _ (getD_mem_of_lt (Nat.lt_of_lt_of_le hi1 hlen)))

theorem encode_inAlphabet (P K : List Int) (hP : ∀ c ∈ P, inAlphabet c)
    (hK : ∀ c ∈ K, inAlphabet c) (hlen : P.length ≤ K.length) :
    ∀ c ∈ encode P K, inAlphabet c := by
  rw [encode_eq_ref P K hP hK hlen]
  intro c hc
  obtain ⟨i, _, rfl⟩ := List.mem_map.mp hc
  exact valSym_inAlphabet _

theorem list_eq_map_range_getD (l : List Int) :
    l = (List.range l.length).map (fun i => l.getD i 0) := by
  apply List.ext_getElem
  · simp
  · intro n h1 h2
    simp [List.getElem?_eq_getElem h1]

/-! ## Cipher transform: the claims -/

/-- C1. Round trip: for every plaintext `P` and key `K` over the 27-symbol
alphabet with `len(K) ≥ len(P)`, the get-mode decode loop applied with `K` to
the output of the post-mode encode loop on `(P, K)` gives back exactly `P`. -/
theorem roundtrip_decode_encode (P K : List Int) (hP : ∀ c ∈ P, inAlphabet c)
    (hK : ∀ c ∈ K, inAlphabet c) (hlen : P.length ≤ K.length) :
    decode (encode P K) K = P := by
  conv_rhs => rw [list_eq_map_range_getD P]
  unfold decode
  rw [encode_length]
  apply List.map_congr_left
  intro i hi
  have hi1 : i < P.length := List.mem_range.mp hi
  have hget : (encode P K).getD i 0 = encodeChar (P.getD i 0) (K.getD i 0) := by
    simp [List.getD_eq_getElem?_getD, encode_getElem? P K i hi1]
  rw [hget]
  exact decode_encodeChar _ _ (hP _ (getD_mem_of_lt hi1))
    (hK _ (getD_mem_of_lt (Nat.lt_of_lt_of_le hi1 hlen)))

/-- Witness of C1 on the plaintext "HI" and the key "XYZ". -/
theorem roundtrip_decode_encode_witness :
    (∀ c ∈ [72, 73], inAlphabet c) ∧ (∀ c ∈ [88, 89, 90], inAlphabet c) ∧
      [72, 73].length ≤ [88, 89, 90].length ∧
      decode (encode [72, 73] [88, 89, 90]) [88, 89, 90] = [72, 73] :=
  ⟨by decide, by decide, by decide,
    roundtrip_decode_encode [72, 73] [88, 89, 90] (by decide) (by decide) (by decide)⟩

/-- C2. Encode equals the mod-27 reference: with `symVal` giving space the
value 0 and `'A'..'Z'` the values 1..26, for every alphabet-valid plaintext `P`
and key `K` with `len(K) ≥ len(P)` the encode loop produces a ciphertext of
length exactly `len(P)` whose `i`-th symbol is the alphabet symbol of value
`(v(P[i]) + v(K[i])) mod 27` for every `i < len(P)`; the ciphertext is
therefore itself alphabet-valid. -/
theorem encode_matches_mod27 (P K : List Int) (hP : ∀ c ∈ P, inAlphabet c)
    (hK : ∀ c ∈ K, inAlphabet c) (hlen : P.length ≤ K.length) :
    (encode P K).length = P.length ∧
      (∀ i (hi : i < P.length),
        (encode P K)[i]? = some (valSym ((symVal P[i] + symVal K[i]) % 27))) ∧
      (∀ c ∈ encode P K, inAlphabet c) := by
  refine ⟨encode_length P K, ?_, encode_inAlphabet P K hP hK hlen⟩
  intro i hi
  have hk : i < K.length := Nat.lt_of_lt_of_le hi hlen
  rw [encode_getElem? P K i hi, List.getD_eq_getElem P 0 hi, List.getD_eq_getElem K 0 hk,
    encodeChar_eq_ref _ _ (hP _ (List.getElem_mem hi)) (hK _ (List.getElem_mem hk))]
  rfl

/-- Witness of C2 on the plaintext "OZ" and the key "LZ " (the first symbol
wraps to a space, the second wraps through `% 91 + 64`). -/
theorem encode_matches_mod27_witness :
    (∀ c ∈ [79, 90], inAlphabet c) ∧ (∀ c ∈ [76, 90, 32], inAlphabet c) ∧
      [79, 90].length ≤ [76, 90, 32].length ∧
      ((encode [79, 90] [76, 90, 32]).length = [79, 90].length ∧
        (∀ i (hi : i < [79, 90].length) (hk : i < [76, 90, 32].length),
          (encode [79, 90] [76, 90, 32])[i]?
            = some (valSym ((symVal [79, 90][i] + symVal [76, 90, 32][i]) % 27))) ∧
        (∀ c ∈ encode [79, 90] [76, 90, 32], inAlphabet c)) :=
  have h := encode_matches_mod27 [79, 90] [76, 90, 32] (by decide) (by decide) (by decide)
  ⟨by decide, by decide, by decide, h.1, fun i hi _ => h.2.1 i hi, h.2.2⟩

/-- C3. Decode equals the mod-27 reference: for every alphabet-valid ciphertext
`C` and key `K` with `len(K) ≥ len(C)` the decode loop produces a plaintext of
length exactly `len(C)` whose `i`-th symbol is the alphabet symbol of value
`(v(C[i]) - v(K[i]) + 27) mod 27` for every `i < len(C)`. -/
theorem decode_matches_mod27 (C K : List Int) (hC : ∀ c ∈ C, inAlphabet c)
    (hK : ∀ c ∈ K, inAlphabet c) (hlen : C.length ≤ K.length) :
    (decode C K).length = C.length ∧
      (∀ i (hi : i < C.length),
        (decode C K)[i]? = some (valSym ((symVal C[i] - symVal K[i] + 27) % 27))) := by
  refine ⟨decode_length C K, ?_⟩
  intro i hi
  have hk : i < K.length := Nat.lt_of_lt_of_le hi hlen
  rw [decode_getElem? C K i hi, List.getD_eq_getElem C 0 hi, List.getD_eq_getElem K 0 hk,
    decodeChar_eq_ref _ _ (hC _ (List.getElem_mem hi)) (hK _ (List.getElem_mem hk))]
  rfl

/-- Witness of C3 on the ciphertext " A" and the key "LZ ". -/
theorem decode_matches_mod27_witness :
    (∀ c ∈ [32, 65], inAlphabet c) ∧ (∀ c ∈ [76, 90, 32], inAlphabet c) ∧
      [32, 65].length ≤ [76, 90, 32].length ∧
      ((decode [32, 65] [76, 90, 32]).length = [32, 65].length ∧
        (∀ i (hi : i < [32, 65].length) (hk : i < [76, 90, 32].length),
          (decode [32, 65] [76, 90, 32])[i]?
            = some (valSym ((symVal [32, 65][i] - symVal [76, 90, 32][i] + 27) % 27)))) :=
  have h := decode_matches_mod27 [32, 65] [76, 90, 32] (by decide) (by decide) (by decide)
  ⟨by decide, by decide, by decide, h.1, fun i hi _ => h.2 i hi⟩

/-- C4. Identity key: for every alphabet-valid input `X` and every key `K`
consisting only of spaces with `len(K) ≥ len(X)`, encoding `X` with `K` and
decoding `X` with `K` both return `X` unchanged. -/
theorem identity_key (X K : List Int) (_hX : ∀ c ∈ X, inAlphabet c)
    (hK : ∀ c ∈ K, c = 32) (hlen : X.length ≤ K.length) :
    encode X K = X ∧ decode X K = X := by
  have key : ∀ i ∈ List.range X.length, K.getD i 0 = 32 := by
    intro i hi
    exact hK _ (getD_mem_of_lt (Nat.lt_of_lt_of_le (List.mem_range.mp hi) hlen))
  constructor
  · conv_rhs => rw [list_eq_map_range_getD X]
    unfold encode
    apply List.map_congr_left
    intro i hi
    show encodeChar (X.getD i 0) (K.getD i 0) = X.getD i 0
    rw [key i hi]
    simp [encodeChar]
  · conv_rhs => rw [list_eq_map_range_getD X]
    unfold decode
    apply List.map_congr_left
    intro i hi
    show decodeChar (X.getD i 0) (K.getD i 0) = X.getD i 0
    rw [key i hi]
    simp [decodeChar]

/-- Witness of C4 on the input "A Z" and a key of four spaces. -/
theorem identity_key_witness :
    (∀ c ∈ [65, 32, 90], inAlphabet c) ∧ (∀ c ∈ [32, 32, 32, 32], c = 32) ∧
      [65, 32, 90].length ≤ [32, 32, 32, 32].length ∧
      (encode [65, 32, 90] [32, 32, 32, 32] = [65, 32, 90] ∧
        decode [65, 32, 90] [32, 32, 32, 32] = [65, 32, 90]) :=
  ⟨by decide, by decide, by decide,
    identity_key [65, 32, 90] [32, 32, 32, 32] (by decide) (by decide) (by decide)⟩

/-- C5. Concrete scenario: for `P = "HELLO WORLD"` and
`K = "XMCKLFZGVYP QRSTUVWYZAB"` the encode loop yields the ciphertext
`"EROW FVVMJT"`, of length `len(P) = 11`, and the decode loop applied to that
ciphertext and `K` yields exactly `"HELLO WORLD"`. -/
theorem hello_world_exchange :
    encode (ofString "HELLO WORLD") (ofString "XMCKLFZGVYP QRSTUVWYZAB")
        = ofString "EROW FVVMJT" ∧
      (encode (ofString "HELLO WORLD") (ofString "XMCKLFZGVYP QRSTUVWYZAB")).length = 11 ∧
      (ofString "HELLO WORLD").length = 11 ∧
      decode (encode (ofString "HELLO WORLD") (ofString "XMCKLFZGVYP QRSTUVWYZAB"))
        (ofString "XMCKLFZGVYP QRSTUVWYZAB") = ofString "HELLO WORLD" := by
  decide

/-! ## Client, post mode: the claims -/

theorem getline_ne_nil {file line : List Int} (h : getline file = some line) : line ≠ [] := by
  cases file with
  | nil => simp [getline] at h
  | cons c cs =>
    simp only [getline, Option.some.injEq] at h
    subst h
    unfold takeLine
    split_ifs <;> simp

theorem any_badChar_eq_false_iff (l : List Int) :
    l.any badChar = false ↔ ∀ c ∈ l, inAlphabet c := by
  simp only [List.any_eq_false, Bool.not_eq_true, badChar_eq_false_iff]

theorem any_badChar_of_not_inAlphabet {l : List Int} (h : ∃ c ∈ l, ¬ inAlphabet c) :
    l.any badChar = true := by
  by_contra hne
  obtain ⟨c, hc, hbad⟩ := h
  exact hbad ((any_badChar_eq_false_iff l).mp (by simpa using hne) c hc)

theorem postSend_ciphertext (user ciphertext : List Int) (net : Net) :
    (postSend user ciphertext net).ciphertext = some ciphertext := by
  unfold postSend
  split_ifs <;> rfl

/-- C6. Key too short on post: for every plaintext line `pl` and key line `kl`
read by the client in post mode with `len(kl) < len(pl)` (as read, or after the
last byte of each is stripped), the client ends with exit status 1, makes no
network call at all (no `socket`, no `connect`, no `sendAll`) and computes no
ciphertext. -/
theorem post_key_too_short (user pf kf pl kl : List Int) (net : Net)
    (hp : getline pf = some pl) (hk : getline kf = some kl)
    (hlen : kl.length < pl.length ∨ kl.dropLast.length < pl.dropLast.length) :
    otpPost user (some pf) (some kf) net = ⟨1, [], none⟩ := by
  have hkl : kl.length ≠ 0 := fun h => getline_ne_nil hk (List.length_eq_zero.mp h)
  have hlt : kl.length < pl.length := by
    rcases hlen with h | h
    · exact h
    · simp only [List.length_dropLast] at h
      omega
  simp only [otpPost, hp, hk, hlt, if_true]

/-- Witness of C6: plaintext file "HELLO\n", key file "AB\n". -/
theorem post_key_too_short_witness :
    getline [72, 69, 76, 76, 79, 10] = some [72, 69, 76, 76, 79, 10] ∧
      getline [65, 66, 10] = some [65, 66, 10] ∧
      ([65, 66, 10].length < [72, 69, 76, 76, 79, 10].length ∨
        [65, 66, 10].dropLast.length < [72, 69, 76, 76, 79, 10].dropLast.length) ∧
      otpPost [98, 111, 98] (some [72, 69, 76, 76, 79, 10]) (some [65, 66, 10])
        ⟨true, true, true, fun _ => true⟩ = ⟨1, [], none⟩ :=
  ⟨by decide, by decide, by decide,
    post_key_too_short [98, 111, 98] [72, 69, 76, 76, 79, 10] [65, 66, 10]
      [72, 69, 76, 76, 79, 10] [65, 66, 10] ⟨true, true, true, fun _ => true⟩
      (by decide) (by decide) (by decide)⟩

/-- C7. Alphabet validation on post: let `pl` and `kl` be the plaintext and key
lines read by the client. If, after the trailing byte of each is stripped, the
plaintext or the key contains a byte that is neither `'A'..'Z'` nor a space,
the client ends with exit status 1 with no ciphertext computed and no network
call made. Conversely, when every byte of both is in the alphabet and the key
is long enough, validation accepts: the run continues into the network part
with the ciphertext computed by the encode loop. -/
theorem post_alphabet_validation (user pf kf pl kl : List Int) (net : Net)
    (hp : getline pf = some pl) (hk : getline kf = some kl) :
    (((∃ c ∈ pl.dropLast, ¬ inAlphabet c) ∨ (∃ c ∈ kl.dropLast, ¬ inAlphabet c)) →
        otpPost user (some pf) (some kf) net = ⟨1, [], none⟩) ∧
      ((∀ c ∈ pl.dropLast, inAlphabet c) → (∀ c ∈ kl.dropLast, inAlphabet c) →
        pl.dropLast.length ≤ kl.dropLast.length →
        otpPost user (some pf) (some kf) net
            = postSend user (encode pl.dropLast kl.dropLast) net ∧
          (otpPost user (some pf) (some kf) net).ciphertext
            = some (encode pl.dropLast kl.dropLast)) := by
  have hpl : pl.length ≠ 0 := fun h => getline_ne_nil hp (List.length_eq_zero.mp h)
  have hkl : kl.length ≠ 0 := fun h => getline_ne_nil hk (List.length_eq_zero.mp h)
  constructor
  · intro hbad
    simp only [otpPost, hp, hk]
    split_ifs with h1 h2 h3
    · rfl
    · rfl
    · rfl
    · exfalso
      rcases hbad with h | h
      · exact h2 (any_badChar_of_not_inAlphabet h)
      · exact h3 (any_badChar_of_not_inAlphabet h)
  · intro hP hK hlen
    have hlt : ¬ kl.length < pl.length := by
      simp only [List.length_dropLast] at hlen
      omega
    have e1 : (pl.dropLast.any badChar) = false := (any_badChar_eq_false_iff _).mpr hP
    have e2 : (kl.dropLast.any badChar) = false := (any_badChar_eq_false_iff _).mpr hK
    have e : otpPost user (some pf) (some kf) net
        = postSend user (encode pl.dropLast kl.dropLast) net := by
      simp [otpPost, hp, hk, hlt, e1, e2]
    exact ⟨e, by rw [e, postSend_ciphertext]⟩

/-- Witness of C7: plaintext file "HI\n" and key file "XYZ\n" are accepted and
the run goes on to the network part with the ciphertext of the encode loop;
plaintext file "H1\n" with the same key file is rejected. -/
theorem post_alphabet_validation_witness :
    (getline [72, 73, 10] = some [72, 73, 10] ∧
      getline [88, 89, 90, 10] = some [88, 89, 90, 10] ∧
      otpPost [98] (some [72, 73, 10]) (some [88, 89, 90, 10])
          ⟨true, true, true, fun _ => true⟩
        = postSend [98] (encode [72, 73] [88, 89, 90]) ⟨true, true, true, fun _ => true⟩) ∧
    (getline [72, 49, 10] = some [72, 49, 10] ∧
      otpPost [98] (some [72, 49, 10]) (some [88, 89, 90, 10])
          ⟨true, true, true, fun _ => true⟩
        = ⟨1, [], none⟩) :=
  ⟨⟨by decide, by decide,
    ((post_alphabet_validation [98] [72, 73, 10] [88, 89, 90, 10] [72, 73, 10]
      [88, 89, 90, 10] ⟨true, true, true, fun _ => true⟩ (by decide) (by decide)).2
      (by decide) (by decide) (by decide)).1⟩,
    by decide,
    (post_alphabet_validation [98] [72, 49, 10] [88, 89, 90, 10] [72, 49, 10]
      [88, 89, 90, 10] ⟨true, true, true, fun _ => true⟩ (by decide) (by decide)).1
      (Or.inl ⟨49, by decide, by decide⟩)⟩

/-! ## `sendAll` and `recvAll`: the claims -/

theorem sizeMod_cast : (sizeMod : Int) = 18446744073709551616 := by
  norm_num [sizeMod]

theorem moved_cons (c : Nat × Int) (cs : List (Nat × Int)) :
    moved (c :: cs) = max c.2 0 + moved cs := by
  simp [moved]

/-- Invariant of the `sendAll` loop: with a transport that never returns more
than it was asked for, `length` units of fuel are enough, and the result
accounts for every byte. -/
theorem sendAll_run (send : Nat → Nat → Int) (hs : ∀ j len, send j len ≤ (len : Int)) :
    ∀ (fuel n k : Nat), n < sizeMod → n ≤ fuel →
      ∃ ok calls, sendAll send fuel n k = some (ok, calls) ∧
        (ok = true → moved calls = n ∧ ∀ c ∈ calls, 1 ≤ c.2) ∧
        (ok = false → moved calls < n ∧ ∃ c ∈ calls, c.2 < 1) ∧
        (∀ c ∈ calls, 0 < c.1) ∧
        (n = 0 → ok = true ∧ calls = []) := by
  intro fuel
  induction fuel with
  | zero =>
    intro n k _ hn
    have h0 : n = 0 := Nat.le_zero.mp hn
    subst h0
    exact ⟨true, [], by simp [sendAll], by simp [moved], by simp, by simp, by simp⟩
  | succ fuel ih =>
    intro n k hlt hn
    by_cases hpos : n > 0
    · by_cases hfail : send k n < 1
      · refine ⟨false, [(n, send k n)], by simp [sendAll, hpos, hfail], by simp, ?_, ?_, ?_⟩
        · intro _
          refine ⟨?_, (n, send k n), by simp, hfail⟩
          rw [moved_cons]
          simp only [moved, List.map_nil, List.sum_nil]
          have : max (send k n) 0 = 0 := max_eq_right (by omega)
          omega
        · intro c hc
          simp only [List.mem_singleton] at hc
          subst hc
          exact hpos
        · intro h0
          omega
      · have hle := hs k n
        have hcast := sizeMod_cast
        have hnext : ((((n : Int) - send k n) % (sizeMod : Int)).toNat : Int) = n - send k n := by
          rw [hcast] at *
          have hlt2 : (n : Int) < 18446744073709551616 := by
            have := hlt
            unfold sizeMod at this
            omega
          omega
        have hlt3 : (((n : Int) - send k n) % (sizeMod : Int)).toNat < sizeMod := by omega
        have hfuel : (((n : Int) - send k n) % (sizeMod : Int)).toNat ≤ fuel := by omega
        obtain ⟨ok, calls, hrun, htrue, hfalse, hposc, _⟩ := ih _ (k + 1) hlt3 hfuel
        refine ⟨ok, (n, send k n) :: calls, by simp [sendAll, hpos, hfail, hrun], ?_, ?_, ?_, ?_⟩
        · intro hok
          obtain ⟨hm, hall⟩ := htrue hok
          refine ⟨?_, ?_⟩
          · rw [moved_cons, hm]
            have : max (send k n) 0 = send k n := max_eq_left (by omega)
            simp only [this]
            omega
          · intro c hc
            rcases List.mem_cons.mp hc with h | h
            · subst h
              simp only
              omega
            · exact hall c h
        · intro hok
          obtain ⟨hm, c, hc, hc1⟩ := hfalse hok
          refine ⟨?_, c, List.mem_cons_of_mem _ hc, hc1⟩
          rw [moved_cons]
          have : max (send k n) 0 = send k n := max_eq_left (by omega)
          simp only [this]
          omega
        · intro c hc
          rcases List.mem_cons.mp hc with h | h
          · subst h
            exact hpos
          · exact hposc c h
        · intro h0
          omega
    · have h0 : n = 0 := by omega
      subst h0
      exact ⟨true, [], by simp [sendAll], by simp [moved], by simp, by simp, by simp⟩

/-- The two loops are the same code over two different system calls. -/
theorem recvAll_eq_sendAll (f : Nat → Nat → Int) :
    ∀ (fuel n k : Nat), recvAll f fuel n k = sendAll f fuel n k := by
  intro fuel
  induction fuel with
  | zero => intro n k; simp [recvAll, sendAll]
  | succ fuel ih => intro n k; simp [recvAll, sendAll, ih]

/-- The calls recorded by the loop are the calls made on the transport: the
first asks for `n` bytes, each result is the transport's answer to that
request, each later request is for what the earlier calls left outstanding,
only the last call can have returned less than 1, and a first call that
returns less than 1 ends the loop with false. -/
theorem sendAll_follows (send : Nat → Nat → Int) (hs : ∀ j len, send j len ≤ (len : Int)) :
    ∀ (fuel n k : Nat) (ok : Bool) (calls : List (Nat × Int)), n < sizeMod →
      sendAll send fuel n k = some (ok, calls) →
      followsTransport send k n calls = true ∧
        (∀ c ∈ calls.dropLast, 1 ≤ c.2) ∧
        (0 < n → send k n < 1 → ok = false ∧ calls = [(n, send k n)]) := by
  intro fuel
  induction fuel with
  | zero =>
    intro n k ok calls _ h
    simp only [sendAll] at h
    split_ifs at h with hpos
    simp only [Option.some.injEq, Prod.mk.injEq] at h
    obtain ⟨rfl, rfl⟩ := h
    exact ⟨rfl, by simp, fun h0 => absurd h0 hpos⟩
  | succ fuel ih =>
    intro n k ok calls hlt h
    simp only [sendAll] at h
    by_cases hpos : n > 0
    · by_cases hfail : send k n < 1
      · simp only [hpos, hfail, if_true, Option.some.injEq, Prod.mk.injEq] at h
        obtain ⟨rfl, rfl⟩ := h
        exact ⟨by simp [followsTransport], by simp, fun _ _ => ⟨rfl, rfl⟩⟩
      · simp only [hpos, hfail, if_true, if_false] at h
        have hle := hs k n
        have hcast := sizeMod_cast
        have hlt2 : (n : Int) < 18446744073709551616 := by
          have := hlt
          unfold sizeMod at this
          omega
        have hnext : (((n : Int) - send k n) % (sizeMod : Int)).toNat
            = n - (send k n).toNat := by
          rw [hcast]
          omega
        have hlt3 : n - (send k n).toNat < sizeMod := by omega
        rw [hnext] at h
        cases hrec : sendAll send fuel (n - (send k n).toNat) (k + 1) with
        | none => simp [hrec] at h
        | some r =>
          simp only [hrec, Option.some.injEq, Prod.mk.injEq] at h
          obtain ⟨rfl, rfl⟩ := h
          obtain ⟨hfol, hlast, _⟩ := ih _ (k + 1) r.1 r.2 hlt3 hrec
          refine ⟨by simp [followsTransport, hfol], ?_, fun _ hf => absurd hf hfail⟩
          intro c hc
          cases hr : r.2 with
          | nil => simp [hr] at hc
          | cons c1 cs =>
            rw [hr, List.dropLast_cons₂] at hc
            rcases List.mem_cons.mp hc with rfl | hc
            · simp only
              omega
            · exact hlast c (by rw [hr]; exact hc)
    · simp only [hpos, if_false, Option.some.injEq, Prod.mk.injEq] at h
      obtain ⟨rfl, rfl⟩ := h
      exact ⟨rfl, by simp, fun h0 => absurd h0 hpos⟩

/-- C8. Exact-count contract of `sendAll` and `recvAll`: for every requested
length `n` (a `size_t`) and every transport whose calls never return more than
the bytes still outstanding, the loop terminates (`n` units of fuel suffice).
The calls it makes are calls on that transport: the first asks for `n` bytes,
each result is what the transport returns, each later call asks for the bytes
still outstanding, and only the last call can have returned less than 1. It
returns true if and only if exactly `n` bytes were moved in total with every
call returning at least 1; it returns false exactly when some call, made while
bytes were still outstanding, returned a value below 1 (fewer than `n` bytes
were moved then), in particular when the first call does; and for `n = 0` it
returns true without a single call. -/
theorem sendAll_recvAll_exact_count (xfer : Nat → Nat → Int) (n fuel k : Nat)
    (hn : n < sizeMod) (hfuel : n ≤ fuel) (hx : ∀ j len, xfer j len ≤ (len : Int)) :
    ∃ ok calls, sendAll xfer fuel n k = some (ok, calls) ∧
      recvAll xfer fuel n k = some (ok, calls) ∧
      followsTransport xfer k n calls = true ∧
      (∀ c ∈ calls.dropLast, 1 ≤ c.2) ∧
      (ok = true ↔ (moved calls = n ∧ ∀ c ∈ calls, 1 ≤ c.2)) ∧
      (ok = false ↔ ∃ c ∈ calls, 0 < c.1 ∧ c.2 < 1) ∧
      (ok = false → moved calls < n) ∧
      (n = 0 → ok = true ∧ calls = []) ∧
      (0 < n → xfer k n < 1 → ok = false ∧ calls = [(n, xfer k n)]) := by
  obtain ⟨ok, calls, hrun, htrue, hfalse, hpos, hzero⟩ := sendAll_run xfer hx fuel n k hn hfuel
  obtain ⟨hfol, hlast, hdead⟩ := sendAll_follows xfer hx fuel n k ok calls hn hrun
  refine ⟨ok, calls, hrun, by rw [recvAll_eq_sendAll, hrun], hfol, hlast, ⟨htrue, ?_⟩,
    ⟨?_, ?_⟩, fun h => (hfalse h).1, hzero, hdead⟩
  · intro h
    cases ok with
    | true => rfl
    | false =>
      obtain ⟨_, c, hc, hc1⟩ := hfalse rfl
      have := h.2 c hc
      omega
  · intro h
    obtain ⟨_, c, hc, hc1⟩ := hfalse h
    exact ⟨c, hc, hpos c hc, hc1⟩
  · intro h
    cases ok with
    | false => rfl
    | true =>
      obtain ⟨c, hc, _, hc1⟩ := h
      have := (htrue rfl).2 c hc
      omega

/-- Witness of C8: 7 bytes over a transport that moves at most 3 bytes per
call take the three calls 3 + 3 + 1 and give true; over a transport whose
every call returns 0 the first call fails and the loop gives false. -/
theorem sendAll_recvAll_exact_count_witness :
    7 < sizeMod ∧ 7 ≤ 7 ∧
      (∀ j len : Nat, (fun (_ : Nat) (l : Nat) => ((min 3 l : Nat) : Int)) j len ≤ (len : Int)) ∧
      sendAll (fun _ l => ((min 3 l : Nat) : Int)) 7 7 0 = some (true, [(7, 3), (4, 3), (1, 1)]) ∧
      sendAll (fun _ _ => 0) 7 7 0 = some (false, [(7, 0)]) ∧
      ∃ ok calls, sendAll (fun _ l => ((min 3 l : Nat) : Int)) 7 7 0 = some (ok, calls) ∧
        recvAll (fun _ l => ((min 3 l : Nat) : Int)) 7 7 0 = some (ok, calls) ∧
        followsTransport (fun _ l => ((min 3 l : Nat) : Int)) 0 7 calls = true ∧
        (∀ c ∈ calls.dropLast, 1 ≤ c.2) ∧
        (ok = true ↔ (moved calls = (7 : Nat) ∧ ∀ c ∈ calls, 1 ≤ c.2)) ∧
        (ok = false ↔ ∃ c ∈ calls, 0 < c.1 ∧ c.2 < 1) ∧
        (ok = false → moved calls < (7 : Nat)) ∧
        ((7 : Nat) = 0 → ok = true ∧ calls = []) ∧
        (0 < 7 → (fun (_ : Nat) (l : Nat) => ((min 3 l : Nat) : Int)) 0 7 < 1 →
          ok = false ∧ calls = [(7, (fun (_ : Nat) (l : Nat) => ((min 3 l : Nat) : Int)) 0 7)]) :=
  ⟨by decide, by decide, fun _ len => by simp, by decide, by decide,
    sendAll_recvAll_exact_count (fun _ l => ((min 3 l : Nat) : Int)) 7 7 0
      (by decide) (by decide) (fun _ len => by simp)⟩

/-! ## Daemon, get mode: the claims -/

/-- No post for the user "bob" ever builds the name "bobby@cipher7". -/
theorem bobby_not_record_of_bob (mtime : Int) (content : List Int) :
    ¬ isRecordOf (ofString "bob") ⟨ofString "bobby@cipher7", mtime, content⟩ := by
  rintro ⟨pid, h⟩
  have h3 := congrArg (fun l => l.getD 3 0) h
  simp [postFilename, cipherInfix, ofString] at h3

theorem toIntC_cases (x : Int) :
    (-2147483648 ≤ x ∧ x ≤ 2147483647 ∧ toIntC x = x) ∨
      ((x < -2147483648 ∨ 2147483647 < x) ∧ toIntC x = -2147483648) := by
  unfold toIntC
  split_ifs with h
  · exact Or.inl ⟨h.1, h.2, rfl⟩
  · exact Or.inr ⟨by omega, rfl⟩

/-- What the `readdir` loop computes from the state `st`: the flag records
whether a name passed the filter, `oldestTime` bounds the age of every entry
that passed, and `oldestFile` is either untouched or the name of an entry that
passed the filter and whose age is `oldestTime`. -/
theorem scanFrom_spec (user : List Int) (t : Int) :
    ∀ (dir : List DirEntry) (st st1 : ScanState), scanFrom user t st dir = some st1 →
      st1.foundUserFile = (st.foundUserFile || dir.any (matchesUser user)) ∧
      st.oldestTime ≤ st1.oldestTime ∧
      (∀ e ∈ dir, matchesUser user e = true → toIntC (t - e.mtime) ≤ st1.oldestTime) ∧
      ((st1.oldestTime = st.oldestTime ∧ st1.oldestFile = st.oldestFile) ∨
        ∃ e ∈ dir, matchesUser user e = true ∧ st1.oldestFile = e.name ∧
          st1.oldestTime = toIntC (t - e.mtime) ∧ st.oldestTime < toIntC (t - e.mtime)) := by
  intro dir
  induction dir with
  | nil =>
    intro st st1 h
    simp only [scanFrom, Option.some.injEq] at h
    subst h
    simp
  | cons e es ih =>
    intro st st1 h
    simp only [scanFrom] at h
    by_cases hm : matchesUser user e = true
    · by_cases hgt : toIntC (t - e.mtime) > st.oldestTime
      · by_cases hlen : e.name.length < 50
        · simp only [scanStep, hm, hgt, hlen, if_true] at h
          obtain ⟨hf, hle, hall, hsel⟩ := ih _ _ h
          simp only at hf hle hall hsel
          refine ⟨by simp [hf, hm], by omega, ?_, ?_⟩
          · intro e1 he1 hm1
            rcases List.mem_cons.mp he1 with rfl | he1
            · exact hle
            · exact hall e1 he1 hm1
          · right
            rcases hsel with ⟨h1, h2⟩ | ⟨e2, he2, hm2, hn2, ht2, hlt2⟩
            · exact ⟨e, List.mem_cons_self _ _, hm, h2, h1, hgt⟩
            · exact ⟨e2, List.mem_cons_of_mem _ he2, hm2, hn2, ht2, by omega⟩
        · simp [scanStep, hm, hgt, hlen] at h
      · simp only [scanStep, hm, hgt, if_true, if_false] at h
        obtain ⟨hf, hle, hall, hsel⟩ := ih _ _ h
        simp only at hf hle hall hsel
        refine ⟨by simp [hf, hm], hle, ?_, ?_⟩
        · intro e1 he1 hm1
          rcases List.mem_cons.mp he1 with rfl | he1
          · omega
          · exact hall e1 he1 hm1
        · rcases hsel with h12 | ⟨e2, he2, hm2, hn2, ht2, hlt2⟩
          · exact Or.inl h12
          · exact Or.inr ⟨e2, List.mem_cons_of_mem _ he2, hm2, hn2, ht2, hlt2⟩
    · simp only [scanStep, hm, Bool.false_eq_true, if_false] at h
      obtain ⟨hf, hle, hall, hsel⟩ := ih _ _ h
      refine ⟨by simp [hf, hm], hle, ?_, ?_⟩
      · intro e1 he1 hm1
        rcases List.mem_cons.mp he1 with rfl | he1
        · exact absurd hm1 hm
        · exact hall e1 he1 hm1
      · rcases hsel with h12 | ⟨e2, he2, hm2, hn2, ht2, hlt2⟩
        · exact Or.inl h12
        · exact Or.inr ⟨e2, List.mem_cons_of_mem _ he2, hm2, hn2, ht2, hlt2⟩

/-- The loop runs to its end when every name that passes the filter fits the
50-byte buffer. -/
theorem scanFrom_isSome (user : List Int) (t : Int) :
    ∀ (dir : List DirEntry) (st : ScanState),
      (∀ e ∈ dir, matchesUser user e = true → e.name.length < 50) →
      ∃ st1, scanFrom user t st dir = some st1 := by
  intro dir
  induction dir with
  | nil => intro st _; exact ⟨st, rfl⟩
  | cons e es ih =>
    intro st hfit
    have hes : ∀ e1 ∈ es, matchesUser user e1 = true → e1.name.length < 50 :=
      fun e1 he1 => hfit e1 (List.mem_cons_of_mem _ he1)
    simp only [scanFrom, scanStep]
    by_cases hm : matchesUser user e = true
    · have hlen := hfit e (List.mem_cons_self _ _) hm
      by_cases hgt : toIntC (t - e.mtime) > st.oldestTime
      · simp only [hm, hgt, hlen, if_true]
        exact ih _ hes
      · simp only [hm, hgt, if_true, if_false]
        exact ih _ hes
    · simp only [hm, Bool.false_eq_true, if_false]
      exact ih _ hes

/-- Where the scan does select the oldest: when every name that passes the
filter fits the buffer, no entry that passes it is more than `2^31 - 1` seconds
old, and at least one entry that passes it was modified strictly before the
scan, `oldestFile` ends as the name of an entry that passes the filter and is
at least as old as every other entry that passes. -/
theorem scan_selects_oldest_match (dir : List DirEntry) (t : Int) (user garbage : List Int)
    (hfit : ∀ e ∈ dir, matchesUser user e = true → e.name.length < 50)
    (hrange : ∀ e ∈ dir, matchesUser user e = true → t - e.mtime ≤ 2147483647)
    (hold : ∃ e ∈ dir, matchesUser user e = true ∧ e.mtime < t) :
    ∃ st, scan dir t user garbage = some st ∧ st.foundUserFile = true ∧
      ∃ e ∈ dir, matchesUser user e = true ∧ st.oldestFile = e.name ∧
        ∀ e1 ∈ dir, matchesUser user e1 = true → e.mtime ≤ e1.mtime := by
  obtain ⟨st, hst⟩ := scanFrom_isSome user t dir ⟨0, garbage, false⟩ hfit
  obtain ⟨hf, _, hall, hsel⟩ := scanFrom_spec user t dir _ _ hst
  obtain ⟨e0, he0, hm0, hlt0⟩ := hold
  have h0 := hall e0 he0 hm0
  have hr0 := hrange e0 he0 hm0
  refine ⟨st, hst, ?_, ?_⟩
  · rw [hf]
    simp only [Bool.false_or, List.any_eq_true]
    exact ⟨e0, he0, hm0⟩
  · rcases hsel with ⟨h1, _⟩ | ⟨e, he, hm, hn, ht, hpos⟩
    · simp only at h1
      rcases toIntC_cases (t - e0.mtime) with ⟨_, _, h⟩ | ⟨_, h⟩ <;> omega
    · refine ⟨e, he, hm, hn, ?_⟩
      intro e1 he1 hm1
      have h1 := hall e1 he1 hm1
      have hr1 := hrange e1 he1 hm1
      simp only at hpos
      rcases toIntC_cases (t - e.mtime) with ⟨_, _, h⟩ | ⟨_, h⟩ <;>
        rcases toIntC_cases (t - e1.mtime) with ⟨_, _, h2⟩ | ⟨_, h2⟩ <;> omega

/-- The part of the not-found contract the code keeps: the get handler sends
`'f'` exactly when no name in the directory passes the filter, and then it
sends nothing else, leaves the directory as it was and exits with status 1. -/
theorem handleGet_no_match (dir : List DirEntry) (t : Int) (user garbage : List Int)
    (sendOk : Nat → Bool) (h0 : sendOk 0 = true) (o : GetOutcome)
    (ho : handleGet dir t user garbage sendOk = some o) :
    (statusByte o = some 102 ↔ dir.any (matchesUser user) = false) ∧
      (statusByte o = some 115 ↔ dir.any (matchesUser user) = true) ∧
      (statusByte o = some 102 → o = ⟨1, [Frame.byte 102], dir⟩) := by
  unfold handleGet at ho
  cases hs : scan dir t user garbage with
  | none => simp [hs] at ho
  | some st =>
    have hf := (scanFrom_spec user t dir _ _ hs).1
    simp only [Bool.false_or] at hf
    simp only [hs, h0, Bool.true_eq_false, if_false] at ho
    by_cases hfound : st.foundUserFile = true
    · have hany : dir.any (matchesUser user) = true := by rw [← hf]; exact hfound
      simp only [hfound, if_true] at ho
      have hsent : statusByte o = some 115 := by
        split at ho
        · simp only [Option.some.injEq] at ho; subst ho; rfl
        · split at ho
          · simp only [Option.some.injEq] at ho; subst ho; rfl
          · split_ifs at ho <;>
              (simp only [Option.some.injEq] at ho; subst ho; rfl)
      simp [hsent, hany]
    · have hany : dir.any (matchesUser user) = false := by
        rw [← hf]; simpa using hfound
      simp only [hfound, Bool.false_eq_true, if_false, Option.some.injEq] at ho
      subst ho
      simp [statusByte, hany]

/-- C9. Oldest-first selection, evaluated on the code. (1) The directory holds
one record of "bob", written in the very second of the scan (`st_mtime` equal
to `time1970`): the scan sets `foundUserFile` and never assigns `oldestFile`,
which keeps its indeterminate initial contents, so no record is selected; with
an empty `oldestFile` the get sends `'s'`, fails to open the file and exits
with status 1, the record still in place.
(2) The directory holds a record of "bobby" older than the one record of
"bob": the scan for "bob" selects the record of "bobby". -/
theorem scan_does_not_select_oldest_record :
    (isRecordOf (ofString "bob") ⟨ofString "bob@cipher10", 1000, ofString "HELLO\n"⟩ ∧
      (∀ garbage : List Int,
        scan [⟨ofString "bob@cipher10", 1000, ofString "HELLO\n"⟩] 1000 (ofString "bob") garbage
          = some ⟨0, garbage, true⟩) ∧
      handleGet [⟨ofString "bob@cipher10", 1000, ofString "HELLO\n"⟩] 1000 (ofString "bob") []
          (fun _ => true)
        = some ⟨1, [Frame.byte 115], [⟨ofString "bob@cipher10", 1000, ofString "HELLO\n"⟩]⟩) ∧
    (isRecordOf (ofString "bob") ⟨ofString "bob@cipher9", 100, ofString "HELLO\n"⟩ ∧
      ¬ isRecordOf (ofString "bob") ⟨ofString "bobby@cipher7", 50, ofString "ABC\n"⟩ ∧
      ∀ garbage : List Int,
        scan [⟨ofString "bobby@cipher7", 50, ofString "ABC\n"⟩,
              ⟨ofString "bob@cipher9", 100, ofString "HELLO\n"⟩] 200 (ofString "bob") garbage
          = some ⟨150, ofString "bobby@cipher7", true⟩) := by
  refine ⟨⟨⟨10, by decide⟩, fun g => rfl, by decide⟩, ⟨9, by decide⟩,
    bobby_not_record_of_bob _ _, fun g => rfl⟩

/-- C10. NotFound, evaluated on the code. (1) The directory holds no record of
"bob", only one of "bobby": a get for "bob" replies `'s'`, sends the ciphertext
of "bobby" and removes that record. (2) The directory holds the record of a
user whose name has 50 characters (the file name is cut to 49): a get for that
user replies `'f'`. -/
theorem get_status_disagrees_with_records :
    ((∀ e ∈ [(⟨ofString "bobby@cipher7", 100, ofString "ABC\n"⟩ : DirEntry)],
        ¬ isRecordOf (ofString "bob") e) ∧
      handleGet [⟨ofString "bobby@cipher7", 100, ofString "ABC\n"⟩] 200 (ofString "bob") []
          (fun _ => true)
        = some ⟨0, [Frame.byte 115, Frame.size 3, Frame.bytes (ofString "ABC")], []⟩) ∧
    (isRecordOf (List.replicate 50 65)
        ⟨postFilename (List.replicate 50 65) 7, 100, ofString "ABC\n"⟩ ∧
      handleGet [⟨postFilename (List.replicate 50 65) 7, 100, ofString "ABC\n"⟩] 200
          (List.replicate 50 65) [] (fun _ => true)
        = some ⟨1, [Frame.byte 102],
            [⟨postFilename (List.replicate 50 65) 7, 100, ofString "ABC\n"⟩]⟩) := by
  refine ⟨⟨?_, by decide⟩, ⟨7, rfl⟩, by decide⟩
  intro e he
  simp only [List.mem_singleton] at he
  subst he
  exact bobby_not_record_of_bob _ _

/-! ## Cipher transform: the wrong key -/

theorem decode_encodeChar_wrong_key (p k k2 : Int) (hp : inAlphabet p) (hk : inAlphabet k)
    (hk2 : inAlphabet k2) (hne : k ≠ k2) : decodeChar (encodeChar p k) k2 ≠ p := by
  rw [encodeChar_eq_ref p k hp hk, decodeChar_eq_ref _ k2 (refEncodeChar_inAlphabet p k) hk2]
  unfold inAlphabet at hp hk hk2
  unfold refDecodeChar refEncodeChar valSym symVal
  split_ifs <;> omega

/-- C20. A wrong key never deciphers correctly: for every alphabet-valid
plaintext `P` and alphabet-valid keys `K` and `K2` of length at least `len(P)`
that differ at a position `i < len(P)`, decoding with `K2` the ciphertext made
with `K` gives at position `i` a symbol other than `P[i]`, so the result is not
`P`. -/
theorem wrong_key_never_deciphers (P K K2 : List Int) (hP : ∀ c ∈ P, inAlphabet c)
    (hK : ∀ c ∈ K, inAlphabet c) (hK2 : ∀ c ∈ K2, inAlphabet c)
    (hlen : P.length ≤ K.length) (hlen2 : P.length ≤ K2.length)
    (i : Nat) (hi : i < P.length) (hdiff : K.getD i 0 ≠ K2.getD i 0) :
    (decode (encode P K) K2)[i]? ≠ P[i]? ∧ decode (encode P K) K2 ≠ P := by
  have hget : (encode P K).getD i 0 = encodeChar (P.getD i 0) (K.getD i 0) := by
    simp [List.getD_eq_getElem?_getD, encode_getElem? P K i hi]
  have hpos : (decode (encode P K) K2)[i]?
      = some (decodeChar (encodeChar (P.getD i 0) (K.getD i 0)) (K2.getD i 0)) := by
    rw [decode_getElem? (encode P K) K2 i (by rw [encode_length]; exact hi), hget]
  have hP1 : P[i]? = some (P.getD i 0) := by
    rw [List.getD_eq_getElem P 0 hi, List.getElem?_eq_getElem hi]
  have hne : (decode (encode P K) K2)[i]? ≠ P[i]? := by
    rw [hpos, hP1]
    intro h
    exact decode_encodeChar_wrong_key _ _ _ (hP _ (getD_mem_of_lt hi))
      (hK _ (getD_mem_of_lt (Nat.lt_of_lt_of_le hi hlen)))
      (hK2 _ (getD_mem_of_lt (Nat.lt_of_lt_of_le hi hlen2))) hdiff (Option.some.inj h)
  exact ⟨hne, fun h => hne (by rw [h])⟩

/-- Witness of C20: plaintext "HI", keys "XYZ" and "XAZ" differ at position 1. -/
theorem wrong_key_never_deciphers_witness :
    (∀ c ∈ [72, 73], inAlphabet c) ∧ (∀ c ∈ [88, 89, 90], inAlphabet c) ∧
      (∀ c ∈ [88, 65, 90], inAlphabet c) ∧ [72, 73].length ≤ [88, 89, 90].length ∧
      [72, 73].length ≤ [88, 65, 90].length ∧ 1 < [72, 73].length ∧
      [88, 89, 90].getD 1 0 ≠ [88, 65, 90].getD 1 0 ∧
      ((decode (encode [72, 73] [88, 89, 90]) [88, 65, 90])[1]? ≠ ([72, 73] : List Int)[1]? ∧
        decode (encode [72, 73] [88, 89, 90]) [88, 65, 90] ≠ [72, 73]) :=
  ⟨by decide, by decide, by decide, by decide, by decide, by decide, by decide,
    wrong_key_never_deciphers [72, 73] [88, 89, 90] [88, 65, 90] (by decide) (by decide)
      (by decide) (by decide) (by decide) 1 (by decide) (by decide)⟩

/-! ## Daemon, get mode: read, send and remove -/

/-- A get that exits with status 0 has scanned the directory, opened the file
named by `oldestFile`, read and validated its first line, sent the three
fields and removed the file of that name. -/
theorem handleGet_exit_zero (dir : List DirEntry) (t : Int) (user garbage : List Int)
    (sendOk : Nat → Bool) (o : GetOutcome)
    (ho : handleGet dir t user garbage sendOk = some o) (h0 : o.exit = 0) :
    ∃ st e line, scan dir t user garbage = some st ∧ st.foundUserFile = true ∧
      dir.find? (fun e => decide (e.name = st.oldestFile)) = some e ∧
      getline e.content = some line ∧ line.dropLast.any badChar = false ∧
      o = ⟨0, [Frame.byte 115, Frame.size line.dropLast.length, Frame.bytes line.dropLast],
        dir.eraseP (fun e => decide (e.name = st.oldestFile))⟩ := by
  unfold handleGet at ho
  cases hs : scan dir t user garbage with
  | none => simp [hs] at ho
  | some st =>
    simp only [hs] at ho
    cases hfound : st.foundUserFile with
    | false =>
      cases hs0 : sendOk 0 <;> simp [hfound, hs0] at ho <;> (subst ho; simp at h0)
    | true =>
      cases hs0 : sendOk 0 with
      | false => simp [hfound, hs0] at ho; subst ho; simp at h0
      | true =>
        cases hfind : dir.find? (fun e => decide (e.name = st.oldestFile)) with
        | none => simp [hfound, hs0, hfind] at ho; subst ho; simp at h0
        | some e =>
          cases hline : getline e.content with
          | none => simp [hfound, hs0, hfind, hline] at ho; subst ho; simp at h0
          | some line =>
            cases hbad : line.dropLast.any badChar with
            | true => simp [hfound, hs0, hfind, hline, hbad] at ho; subst ho; simp at h0
            | false =>
              cases hs1 : sendOk 1 with
              | false =>
                simp [hfound, hs0, hfind, hline, hbad, hs1] at ho; subst ho; simp at h0
              | true =>
                cases hs2 : sendOk 2 with
                | false =>
                  simp [hfound, hs0, hfind, hline, hbad, hs1, hs2] at ho; subst ho; simp at h0
                | true =>
                  simp only [hfound, hs0, hfind, hline, hbad, hs1, hs2, if_true, if_false,
                    Bool.true_eq_false, Bool.false_eq_true, Option.some.injEq] at ho
                  exact ⟨st, e, line, rfl, hfound, hfind, hline, hbad, ho.symm⟩

/-- Reading by name and removing by name touch the same entry: the first one
of that name in the listing. -/
theorem find?_eraseP_split (dir : List DirEntry) (name : List Int) (e : DirEntry)
    (h : dir.find? (fun e => decide (e.name = name)) = some e) :
    e.name = name ∧ ∃ l1 l2, dir = l1 ++ e :: l2 ∧
      dir.eraseP (fun e => decide (e.name = name)) = l1 ++ l2 ∧
      ∀ e1 ∈ l1, e1.name ≠ name := by
  obtain ⟨hp, l1, l2, hdir, hl1⟩ := List.find?_eq_some.mp h
  have hname : e.name = name := by simpa using hp
  have hl1n : ∀ e1 ∈ l1, e1.name ≠ name := by
    intro e1 he1
    simpa using hl1 e1 he1
  refine ⟨hname, l1, l2, hdir, ?_, hl1n⟩
  rw [hdir, List.eraseP_append_right _ (by
    intro b hb
    simpa using hl1n b hb)]
  rw [List.eraseP_cons_of_pos (by simpa using hname)]

/-- C11. Take removes exactly what it returns: whenever a get succeeds (the
child exits with status 0), the directory afterwards is the directory before
minus exactly one entry `e`, the one whose first line (last byte stripped) was
sent to the client after `'s'` and its length; all other entries are unchanged
and keep their order. In a directory whose names are pairwise distinct no entry
of that name is left, so a following successful get for any user takes an entry
other than `e`. -/
theorem get_removes_exactly_the_record_sent (dir : List DirEntry) (t : Int)
    (user garbage : List Int) (sendOk : Nat → Bool) (o : GetOutcome)
    (ho : handleGet dir t user garbage sendOk = some o) (h0 : o.exit = 0) :
    ∃ e l1 l2 line, dir = l1 ++ e :: l2 ∧ o.dir = l1 ++ l2 ∧
      getline e.content = some line ∧
      o.sent = [Frame.byte 115, Frame.size line.dropLast.length, Frame.bytes line.dropLast] ∧
      ((dir.map (fun e => e.name)).Nodup →
        (∀ e1 ∈ o.dir, e1.name ≠ e.name) ∧
        ∀ (user2 : List Int) (t2 : Int) (garbage2 : List Int) (sendOk2 : Nat → Bool)
          (o2 : GetOutcome), handleGet o.dir t2 user2 garbage2 sendOk2 = some o2 →
          o2.exit = 0 →
          ∃ e2 l3 l4, o.dir = l3 ++ e2 :: l4 ∧ o2.dir = l3 ++ l4 ∧ e2.name ≠ e.name) := by
  obtain ⟨st, e, line, _, _, hfind, hline, _, rfl⟩ :=
    handleGet_exit_zero dir t user garbage sendOk o ho h0
  obtain ⟨_, l1, l2, hdir, herase, _⟩ := find?_eraseP_split dir st.oldestFile e hfind
  refine ⟨e, l1, l2, line, hdir, herase, hline, rfl, ?_⟩
  intro hnodup
  have hrest : ∀ e1 ∈ l1 ++ l2, e1.name ≠ e.name := by
    intro e1 he1 heq
    rw [hdir, List.map_append, List.map_cons] at hnodup
    have h2 := (List.nodup_cons.mp (List.nodup_middle.mp hnodup)).1
    apply h2
    rw [← List.map_append, ← heq]
    exact List.mem_map_of_mem _ he1
  refine ⟨by simpa only [herase] using hrest, ?_⟩
  intro user2 t2 garbage2 sendOk2 o2 ho2 h02
  obtain ⟨st2, e2, _, _, _, hfind2, _, _, rfl⟩ :=
    handleGet_exit_zero _ t2 user2 garbage2 sendOk2 o2 ho2 h02
  obtain ⟨_, l3, l4, hdir2, herase2, _⟩ := find?_eraseP_split _ st2.oldestFile e2 hfind2
  refine ⟨e2, l3, l4, hdir2, herase2, ?_⟩
  apply hrest e2
  have hmem : e2 ∈ (⟨0, [Frame.byte 115, Frame.size line.dropLast.length,
      Frame.bytes line.dropLast],
      dir.eraseP (fun e => decide (e.name = st.oldestFile))⟩ : GetOutcome).dir := by
    rw [hdir2]
    simp
  simpa only [herase] using hmem

/-- Witness of C11: two records of "bob"; the get sends the older one, "HELLO",
and leaves the other in place. -/
theorem get_removes_exactly_the_record_sent_witness :
    handleGet [⟨ofString "bob@cipher9", 150, ofString "ABC\n"⟩,
        ⟨ofString "bob@cipher7", 100, ofString "HELLO\n"⟩] 200 (ofString "bob") []
        (fun _ => true)
      = some ⟨0, [Frame.byte 115, Frame.size 5, Frame.bytes (ofString "HELLO")],
          [⟨ofString "bob@cipher9", 150, ofString "ABC\n"⟩]⟩ ∧
    ∃ e l1 l2 line,
      [(⟨ofString "bob@cipher9", 150, ofString "ABC\n"⟩ : DirEntry),
        ⟨ofString "bob@cipher7", 100, ofString "HELLO\n"⟩] = l1 ++ e :: l2 ∧
      [(⟨ofString "bob@cipher9", 150, ofString "ABC\n"⟩ : DirEntry)] = l1 ++ l2 ∧
      getline e.content = some line ∧
      [Frame.byte 115, Frame.size 5, Frame.bytes (ofString "HELLO")]
        = [Frame.byte 115, Frame.size line.dropLast.length, Frame.bytes line.dropLast] :=
  ⟨by decide,
    have h := get_removes_exactly_the_record_sent
      [⟨ofString "bob@cipher9", 150, ofString "ABC\n"⟩,
        ⟨ofString "bob@cipher7", 100, ofString "HELLO\n"⟩] 200 (ofString "bob") []
      (fun _ => true)
      ⟨0, [Frame.byte 115, Frame.size 5, Frame.bytes (ofString "HELLO")],
        [⟨ofString "bob@cipher9", 150, ofString "ABC\n"⟩]⟩ (by decide) rfl
    match h with
    | ⟨e, l1, l2, line, h1, h2, h3, h4, _⟩ => ⟨e, l1, l2, line, h1, h2, h3, h4⟩⟩

/-- C15, as stated, fails: the daemon handles a post for "bob" whose payload
is "AB", a line feed, "X1" (post mode checks nothing) and stores the two lines
"AB" and "X1"; the second content line holds the byte `'1'`. The following get
reads and checks the first line only: it replies `'s'`, sends the length 2
and "AB", exits with status 0 and removes the whole file. -/
theorem bad_byte_after_first_line_is_not_surfaced :
    childSession [] 100 7 [] (some 112) (some (ofString "bob")) (some (ofString "AB\nX1"))
        true (fun _ => true)
      = some ⟨0, [], [⟨ofString "bob@cipher7", 100, ofString "AB\nX1\n"⟩]⟩ ∧
    ofString "AB\nX1\n" = ofString "AB" ++ [10] ++ (ofString "X1" ++ [10]) ∧
    (49 : Int) ∈ ofString "X1" ∧ ¬ inAlphabet 49 ∧
    handleGet [⟨ofString "bob@cipher7", 100, ofString "AB\nX1\n"⟩] 200 (ofString "bob") []
        (fun _ => true)
      = some ⟨0, [Frame.byte 115, Frame.size 2, Frame.bytes (ofString "AB")], []⟩ := by
  decide

/-- C15, amended. Invalid stored data in the line the daemon reads is surfaced
and kept: when the file selected by a get (the one named by `oldestFile` after
a scan that found a file) has a first line which, its last byte (the line
terminator) stripped, holds a byte that is neither `'A'..'Z'` nor a space, the
child exits with status 1, sends nothing but the status byte `'s'` (no length,
no ciphertext byte), and the directory, that file included, is unchanged. -/
theorem invalid_stored_data_kept (dir : List DirEntry) (t : Int) (user garbage : List Int)
    (sendOk : Nat → Bool) (st : ScanState) (e : DirEntry) (line : List Int)
    (hs : scan dir t user garbage = some st) (hf : st.foundUserFile = true)
    (hfind : dir.find? (fun e => decide (e.name = st.oldestFile)) = some e)
    (hline : getline e.content = some line)
    (hbad : ∃ c ∈ line.dropLast, ¬ inAlphabet c) :
    ∃ o, handleGet dir t user garbage sendOk = some o ∧ o.exit = 1 ∧
      (∀ f ∈ o.sent, f = Frame.byte 115) ∧ o.dir = dir ∧ e ∈ o.dir := by
  have hany := any_badChar_of_not_inAlphabet hbad
  have hmem : e ∈ dir := List.mem_of_find?_eq_some hfind
  cases hs0 : sendOk 0 with
  | false =>
    exact ⟨⟨1, [], dir⟩, by simp [handleGet, hs, hf, hs0], rfl, by simp, rfl, hmem⟩
  | true =>
    exact ⟨⟨1, [Frame.byte 115], dir⟩, by simp [handleGet, hs, hf, hs0, hfind, hline, hany],
      rfl, by simp, rfl, hmem⟩

/-- Witness of C15 amended: the stored line "AB1" holds the byte `'1'`. -/
theorem invalid_stored_data_kept_witness :
    ∃ o, handleGet [⟨ofString "bob@cipher7", 100, ofString "AB1\n"⟩] 200 (ofString "bob") []
        (fun _ => true) = some o ∧ o.exit = 1 ∧
      (∀ f ∈ o.sent, f = Frame.byte 115) ∧
      o.dir = [⟨ofString "bob@cipher7", 100, ofString "AB1\n"⟩] ∧
      (⟨ofString "bob@cipher7", 100, ofString "AB1\n"⟩ : DirEntry) ∈ o.dir :=
  invalid_stored_data_kept [⟨ofString "bob@cipher7", 100, ofString "AB1\n"⟩] 200
    (ofString "bob") [] (fun _ => true) ⟨100, ofString "bob@cipher7", true⟩
    ⟨ofString "bob@cipher7", 100, ofString "AB1\n"⟩ (ofString "AB1\n")
    (by decide) rfl (by decide) (by decide) ⟨49, by decide, by decide⟩

/-! ## Daemon, admission control -/

/-- What one step does to the counter and to the children: the counter stays
at most 5, and its excess over the number of children not yet reaped grows
exactly when `fork` failed. -/
theorem daemonStep_count (s s1 : Daemon) (ev : DaemonEvent) (h : daemonStep s ev = some s1) :
    (s.numChildPids ≤ 5 → s1.numChildPids ≤ 5) ∧
      s1.numChildPids - ((s1.running.length : Int) + s1.zombies.length)
        = s.numChildPids - ((s.running.length : Int) + s.zombies.length) + failedForks [ev] := by
  cases ev with
  | accept spawnPid =>
    cases spawnPid with
    | none =>
      simp only [daemonStep] at h
      split_ifs at h with hlt
      simp only [Option.some.injEq] at h
      subst h
      simp only [failedForks]
      constructor
      · intro _; omega
      · push_cast; omega
    | some pid =>
      simp only [daemonStep] at h
      split_ifs at h with hlt
      simp only [Option.some.injEq] at h
      subst h
      simp only [failedForks, List.length_cons]
      constructor
      · intro _; omega
      · push_cast; omega
  | terminate pid =>
    simp only [daemonStep] at h
    split_ifs at h with hmem
    simp only [Option.some.injEq] at h
    subst h
    have hlen := List.length_erase_of_mem hmem
    have hpos : 0 < s.running.length := List.length_pos_of_mem hmem
    simp only [failedForks, List.length_cons, hlen]
    constructor
    · intro h5; exact h5
    · push_cast
      omega
  | reap pid =>
    simp only [daemonStep] at h
    split_ifs at h with hmem
    simp only [Option.some.injEq] at h
    subst h
    have hlen := List.length_erase_of_mem hmem
    have hpos : 0 < s.zombies.length := List.length_pos_of_mem hmem
    simp only [failedForks, hlen]
    constructor
    · intro h5; omega
    · push_cast
      omega

theorem failedForks_cons (ev : DaemonEvent) (evs : List DaemonEvent) :
    failedForks (ev :: evs) = failedForks [ev] + failedForks evs := by
  cases ev with
  | accept spawnPid => cases spawnPid <;> simp [failedForks]; omega
  | terminate pid => simp [failedForks]
  | reap pid => simp [failedForks]

/-- The counter along a run: it stays at most 5, and it exceeds the number of
children not yet reaped by the number of failed `fork` calls. -/
theorem daemonRun_count (evs : List DaemonEvent) :
    ∀ (s s1 : Daemon), daemonRun s evs = some s1 →
      (s.numChildPids ≤ 5 → s1.numChildPids ≤ 5) ∧
        s1.numChildPids - ((s1.running.length : Int) + s1.zombies.length)
          = s.numChildPids - ((s.running.length : Int) + s.zombies.length)
            + failedForks evs := by
  induction evs with
  | nil =>
    intro s s1 h
    simp only [daemonRun, Option.some.injEq] at h
    subst h
    simp [failedForks]
  | cons ev evs ih =>
    intro s s1 h
    simp only [daemonRun] at h
    cases hstep : daemonStep s ev with
    | none => simp [hstep] at h
    | some s2 =>
      simp only [hstep] at h
      obtain ⟨h5, hcount⟩ := daemonStep_count s s2 ev hstep
      obtain ⟨h5b, hcountb⟩ := ih s2 s1 h
      refine ⟨fun hs => h5b (h5 hs), ?_⟩
      rw [failedForks_cons]
      push_cast
      omega

/-- C16. Admission bound: in every state the parent reaches from its start by
steps "accept and fork" (taken only when the counter is below 5), "a child
terminates" and "the handler reaps a child", the counter is between 0 and 5 and
the children not yet reaped (running or not) number at most the counter, hence
at most 5; in a state where the counter is 5 no accept step can be taken, so
no worker is spawned there. -/
theorem admission_bound (evs : List DaemonEvent) (s : Daemon)
    (h : daemonRun daemonStart evs = some s) :
    0 ≤ s.numChildPids ∧ s.numChildPids ≤ 5 ∧
      ((s.running.length : Int) + s.zombies.length ≤ s.numChildPids) ∧
      s.running.length ≤ 5 ∧
      (s.numChildPids = 5 → ∀ spawnPid, daemonStep s (DaemonEvent.accept spawnPid) = none) := by
  obtain ⟨h5, hcount⟩ := daemonRun_count evs daemonStart s h
  have h5s := h5 (by decide)
  simp only [daemonStart, List.length_nil] at hcount
  refine ⟨by omega, h5s, by omega, by omega, ?_⟩
  intro heq spawnPid
  simp [daemonStep, heq]

/-- Witness of C16: five workers are spawned, one terminates and is reaped, a
sixth is spawned. -/
theorem admission_bound_witness :
    daemonRun daemonStart
        [DaemonEvent.accept (some 11), DaemonEvent.accept (some 12),
          DaemonEvent.accept (some 13), DaemonEvent.accept (some 14),
          DaemonEvent.accept (some 15), DaemonEvent.terminate 13, DaemonEvent.reap 13,
          DaemonEvent.accept (some 16)]
      = some ⟨5, [16, 15, 14, 12, 11], []⟩ ∧
    (0 ≤ (5 : Int) ∧ (5 : Int) ≤ 5 ∧
      ((([16, 15, 14, 12, 11] : List Nat).length : Int) + ([] : List Nat).length ≤ 5) ∧
      ([16, 15, 14, 12, 11] : List Nat).length ≤ 5 ∧
      ((5 : Int) = 5 → ∀ spawnPid,
        daemonStep ⟨5, [16, 15, 14, 12, 11], []⟩ (DaemonEvent.accept spawnPid) = none)) :=
  ⟨by decide,
    admission_bound
      [DaemonEvent.accept (some 11), DaemonEvent.accept (some 12),
        DaemonEvent.accept (some 13), DaemonEvent.accept (some 14),
        DaemonEvent.accept (some 15), DaemonEvent.terminate 13, DaemonEvent.reap 13,
        DaemonEvent.accept (some 16)]
      ⟨5, [16, 15, 14, 12, 11], []⟩ (by decide)⟩

/-- When no `fork` fails the counter is the number of children not yet reaped. -/
theorem count_eq_children_of_no_failed_fork (evs : List DaemonEvent) (s : Daemon)
    (h : daemonRun daemonStart evs = some s) (hfork : failedForks evs = 0) :
    s.numChildPids = (s.running.length : Int) + s.zombies.length := by
  obtain ⟨_, hcount⟩ := daemonRun_count evs daemonStart s h
  simp only [daemonStart, List.length_nil, hfork] at hcount
  push_cast at hcount
  omega

/-- C17. No slot leak, evaluated on the code. One pass through the accept loop
in which `fork` returns -1 leaves the counter at 1 although no worker was
started. After five such passes the counter is 5 with no child at all: no
accept step, no termination and no reaping can be taken any more, so the
counter stays at 5 and the daemon serves no further connection. -/
theorem failed_fork_leaks_slot :
    daemonRun daemonStart [DaemonEvent.accept none] = some ⟨1, [], []⟩ ∧
      daemonRun daemonStart (List.replicate 5 (DaemonEvent.accept none)) = some ⟨5, [], []⟩ ∧
      ∀ ev, daemonStep ⟨5, [], []⟩ ev = none := by
  refine ⟨by decide, by decide, ?_⟩
  intro ev
  cases ev <;> simp [daemonStep]

/-! ## Daemon, get mode: ties, owners and names -/

/-- Position of the entry the `readdir` loop selects: either `oldestFile` is
untouched and no entry that passes the filter is older than `oldestTime`, or
it names an entry that passes the filter, every entry before it that passes
is strictly younger, and every entry after it that passes is not older. -/
theorem scanFrom_first (user : List Int) (t : Int) :
    ∀ (dir : List DirEntry) (st st1 : ScanState), scanFrom user t st dir = some st1 →
      (st1.oldestTime = st.oldestTime ∧ st1.oldestFile = st.oldestFile ∧
        ∀ e ∈ dir, matchesUser user e = true → toIntC (t - e.mtime) ≤ st.oldestTime) ∨
      ∃ l1 e l2, dir = l1 ++ e :: l2 ∧ matchesUser user e = true ∧
        st1.oldestFile = e.name ∧ st1.oldestTime = toIntC (t - e.mtime) ∧
        st.oldestTime < toIntC (t - e.mtime) ∧
        (∀ e1 ∈ l1, matchesUser user e1 = true → toIntC (t - e1.mtime) < toIntC (t - e.mtime)) ∧
        (∀ e1 ∈ l2, matchesUser user e1 = true → toIntC (t - e1.mtime) ≤ toIntC (t - e.mtime)) := by
  intro dir
  induction dir with
  | nil =>
    intro st st1 h
    simp only [scanFrom, Option.some.injEq] at h
    subst h
    left
    simp
  | cons e es ih =>
    intro st st1 h
    simp only [scanFrom] at h
    by_cases hm : matchesUser user e = true
    · by_cases hgt : toIntC (t - e.mtime) > st.oldestTime
      · by_cases hlen : e.name.length < 50
        · simp only [scanStep, hm, hgt, hlen, if_true] at h
          rcases ih _ _ h with ⟨h1, h2, h3⟩ | ⟨l1, e2, l2, hd, hm2, hn2, ht2, hlt2, hb, ha⟩
          · right
            exact ⟨[], e, es, rfl, hm, h2, h1, hgt, by simp, h3⟩
          · right
            refine ⟨e :: l1, e2, l2, by rw [hd]; rfl, hm2, hn2, ht2, ?_, ?_, ha⟩
            · simp only at hlt2
              omega
            · intro e1 he1 hm1
              rcases List.mem_cons.mp he1 with rfl | he1
              · exact hlt2
              · exact hb e1 he1 hm1
        · simp [scanStep, hm, hgt, hlen] at h
      · simp only [scanStep, hm, hgt, if_true, if_false] at h
        rcases ih _ _ h with ⟨h1, h2, h3⟩ | ⟨l1, e2, l2, hd, hm2, hn2, ht2, hlt2, hb, ha⟩
        · left
          refine ⟨h1, h2, ?_⟩
          intro e1 he1 hm1
          rcases List.mem_cons.mp he1 with rfl | he1
          · omega
          · exact h3 e1 he1 hm1
        · right
          refine ⟨e :: l1, e2, l2, by rw [hd]; rfl, hm2, hn2, ht2, hlt2, ?_, ha⟩
          intro e1 he1 hm1
          rcases List.mem_cons.mp he1 with rfl | he1
          · simp only at hlt2
            omega
          · exact hb e1 he1 hm1
    · simp only [scanStep, hm, Bool.false_eq_true, if_false] at h
      rcases ih _ _ h with ⟨h1, h2, h3⟩ | ⟨l1, e2, l2, hd, hm2, hn2, ht2, hlt2, hb, ha⟩
      · left
        refine ⟨h1, h2, ?_⟩
        intro e1 he1 hm1
        rcases List.mem_cons.mp he1 with rfl | he1
        · exact absurd hm1 hm
        · exact h3 e1 he1 hm1
      · right
        refine ⟨e :: l1, e2, l2, by rw [hd]; rfl, hm2, hn2, ht2, hlt2, ?_, ha⟩
        intro e1 he1 hm1
        rcases List.mem_cons.mp he1 with rfl | he1
        · exact absurd hm1 hm
        · exact hb e1 he1 hm1

/-- C18, as stated, fails: two records of "bob" share the oldest modification
time; the scan selects the one met first in the walk, not the one met last. -/
theorem tie_selects_first_not_last :
    scan [⟨ofString "bob@cipher1", 100, ofString "FIRST\n"⟩,
          ⟨ofString "bob@cipher2", 100, ofString "LAST\n"⟩] 200 (ofString "bob") []
        = some ⟨100, ofString "bob@cipher1", true⟩ ∧
      ofString "bob@cipher1" ≠ ofString "bob@cipher2" ∧
      handleGet [⟨ofString "bob@cipher1", 100, ofString "FIRST\n"⟩,
          ⟨ofString "bob@cipher2", 100, ofString "LAST\n"⟩] 200 (ofString "bob") []
          (fun _ => true)
        = some ⟨0, [Frame.byte 115, Frame.size 5, Frame.bytes (ofString "FIRST")],
            [⟨ofString "bob@cipher2", 100, ofString "LAST\n"⟩]⟩ := by
  decide

/-- C18, amended. For every walk order in which every name that passes the
filter for the requested user fits the 50-byte buffer, no entry that passes is
more than `2^31 - 1` seconds older than the scan (so that `timeDiff`, an `int`,
holds the difference), and at least one entry that passes was modified
strictly before the scan, the scan selects an entry that passes the filter
and has the oldest modification time among those that pass, and every entry
met before it in the walk that passes the filter is strictly younger: among
the entries that share the oldest modification time it is the one met first. -/
theorem tie_selects_first (dir : List DirEntry) (t : Int) (user garbage : List Int)
    (hfit : ∀ e ∈ dir, matchesUser user e = true → e.name.length < 50)
    (hrange : ∀ e ∈ dir, matchesUser user e = true → t - e.mtime ≤ 2147483647)
    (hold : ∃ e ∈ dir, matchesUser user e = true ∧ e.mtime < t) :
    ∃ st l1 e l2, scan dir t user garbage = some st ∧ dir = l1 ++ e :: l2 ∧
      matchesUser user e = true ∧ st.oldestFile = e.name ∧
      (∀ e1 ∈ l1, matchesUser user e1 = true → e.mtime < e1.mtime) ∧
      (∀ e1 ∈ l2, matchesUser user e1 = true → e.mtime ≤ e1.mtime) := by
  obtain ⟨st, hst⟩ := scanFrom_isSome user t dir ⟨0, garbage, false⟩ hfit
  obtain ⟨e0, he0, hm0, hlt0⟩ := hold
  have hr0 := hrange e0 he0 hm0
  rcases scanFrom_first user t dir _ _ hst with
    ⟨_, _, h3⟩ | ⟨l1, e, l2, hd, hm, hn, _, hpos, hb, ha⟩
  · have := h3 e0 he0 hm0
    simp only at this
    rcases toIntC_cases (t - e0.mtime) with ⟨_, _, h⟩ | ⟨_, h⟩ <;> omega
  · simp only at hpos
    refine ⟨st, l1, e, l2, hst, hd, hm, hn, ?_, ?_⟩
    · intro e1 he1 hm1
      have h1 := hb e1 he1 hm1
      have hr1 := hrange e1 (by rw [hd]; exact List.mem_append_left _ he1) hm1
      rcases toIntC_cases (t - e.mtime) with ⟨_, _, h⟩ | ⟨_, h⟩ <;>
        rcases toIntC_cases (t - e1.mtime) with ⟨_, _, h2⟩ | ⟨_, h2⟩ <;> omega
    · intro e1 he1 hm1
      have h1 := ha e1 he1 hm1
      have hr1 := hrange e1
        (by rw [hd]; exact List.mem_append_right _ (List.mem_cons_of_mem _ he1)) hm1
      rcases toIntC_cases (t - e.mtime) with ⟨_, _, h⟩ | ⟨_, h⟩ <;>
        rcases toIntC_cases (t - e1.mtime) with ⟨_, _, h2⟩ | ⟨_, h2⟩ <;> omega

/-- Witness of C18 amended, on the two records of the counterexample. -/
theorem tie_selects_first_witness :
    (∀ e ∈ [(⟨ofString "bob@cipher1", 100, ofString "FIRST\n"⟩ : DirEntry),
          ⟨ofString "bob@cipher2", 100, ofString "LAST\n"⟩],
        matchesUser (ofString "bob") e = true → e.name.length < 50) ∧
      (∀ e ∈ [(⟨ofString "bob@cipher1", 100, ofString "FIRST\n"⟩ : DirEntry),
          ⟨ofString "bob@cipher2", 100, ofString "LAST\n"⟩],
        matchesUser (ofString "bob") e = true → 200 - e.mtime ≤ 2147483647) ∧
      (∃ e ∈ [(⟨ofString "bob@cipher1", 100, ofString "FIRST\n"⟩ : DirEntry),
          ⟨ofString "bob@cipher2", 100, ofString "LAST\n"⟩],
        matchesUser (ofString "bob") e = true ∧ e.mtime < 200) ∧
      ∃ st l1 e l2,
        scan [⟨ofString "bob@cipher1", 100, ofString "FIRST\n"⟩,
            ⟨ofString "bob@cipher2", 100, ofString "LAST\n"⟩] 200 (ofString "bob") []
          = some st ∧
        [(⟨ofString "bob@cipher1", 100, ofString "FIRST\n"⟩ : DirEntry),
          ⟨ofString "bob@cipher2", 100, ofString "LAST\n"⟩] = l1 ++ e :: l2 ∧
        matchesUser (ofString "bob") e = true ∧ st.oldestFile = e.name ∧
        (∀ e1 ∈ l1, matchesUser (ofString "bob") e1 = true → e.mtime < e1.mtime) ∧
        (∀ e1 ∈ l2, matchesUser (ofString "bob") e1 = true → e.mtime ≤ e1.mtime) :=
  ⟨by decide, by decide, by decide,
    tie_selects_first
      [⟨ofString "bob@cipher1", 100, ofString "FIRST\n"⟩,
        ⟨ofString "bob@cipher2", 100, ofString "LAST\n"⟩] 200 (ofString "bob") []
      (by decide) (by decide) (by decide)⟩

theorem startsWith_append (n r : List Int) : startsWith (n ++ r) n = true := by
  induction n with
  | nil => cases r <;> rfl
  | cons x xs ih => simp [startsWith, ih]

theorem strstr_of_startsWith (h n : List Int) (hs : startsWith h n = true) :
    strstr h n = true := by
  cases h with
  | nil => simpa [strstr] using hs
  | cons x xs => simp [strstr, hs]

theorem strstr_append_left (a h n : List Int) (hs : strstr h n = true) :
    strstr (a ++ h) n = true := by
  induction a with
  | nil => simpa using hs
  | cons x xs ih => simp [strstr, ih]

/-- A name that post mode builds without cutting it passes the filter for its
own user. -/
theorem matchesUser_postFilename (u : List Int) (pid : Nat) (mtime : Int) (content : List Int)
    (hfit : (u ++ cipherInfix ++ ofString (Nat.repr pid)).length ≤ 49) :
    matchesUser u ⟨postFilename u pid, mtime, content⟩ = true := by
  have hname : postFilename u pid = u ++ cipherInfix ++ ofString (Nat.repr pid) :=
    List.take_of_length_le hfit
  simp only [matchesUser, hname, Bool.and_eq_true]
  constructor
  · rw [List.append_assoc]
    exact strstr_of_startsWith _ _ (startsWith_append u _)
  · rw [List.append_assoc]
    exact strstr_append_left u _ _ (strstr_of_startsWith _ _ (startsWith_append cipherInfix _))

theorem scanFrom_append (user : List Int) (t : Int) :
    ∀ (l1 l2 : List DirEntry) (st : ScanState),
      scanFrom user t st (l1 ++ l2)
        = match scanFrom user t st l1 with
          | none => none
          | some st1 => scanFrom user t st1 l2 := by
  intro l1
  induction l1 with
  | nil => intro l2 st; rfl
  | cons e es ih =>
    intro l2 st
    simp only [List.cons_append, scanFrom]
    cases scanStep user t st e with
    | none => rfl
    | some st1 => exact ih l2 st1

theorem scanFrom_no_match (user : List Int) (t : Int) :
    ∀ (dir : List DirEntry) (st : ScanState), (∀ e ∈ dir, matchesUser user e = false) →
      scanFrom user t st dir = some st := by
  intro dir
  induction dir with
  | nil => intro st _; rfl
  | cons e es ih =>
    intro st h
    have he := h e (List.mem_cons_self _ _)
    simp only [scanFrom, scanStep, he, Bool.false_eq_true, if_false]
    exact ih st (fun e1 he1 => h e1 (List.mem_cons_of_mem _ he1))

theorem takeLine_append_newline (c : List Int) (hc : ∀ x ∈ c, x ≠ 10) :
    takeLine (c ++ [10]) = c ++ [10] := by
  induction c with
  | nil => simp [takeLine]
  | cons x xs ih =>
    have hx : x ≠ 10 := hc x (List.mem_cons_self _ _)
    simp [takeLine, hx, ih (fun y hy => hc y (List.mem_cons_of_mem _ hy))]

theorem getline_append_newline (c : List Int) (hc : ∀ x ∈ c, x ≠ 10) :
    getline (c ++ [10]) = some (c ++ [10]) := by
  have h := takeLine_append_newline c hc
  cases hcs : c ++ [10] with
  | nil => simp at hcs
  | cons x xs =>
    rw [hcs] at h
    simp [getline, h]

theorem cstr_eq_self (c : List Int) (hc : ∀ x ∈ c, x ≠ 0) : cstr c = c := by
  unfold cstr
  rw [List.takeWhile_eq_self_iff]
  intro x hx
  simpa using hc x hx

/-- Where put-then-take does hold: the name fits the buffer uncut and holds no
`'/'`, no entry of the directory passes the filter for the user, the
ciphertext is over the alphabet, the get runs at least one second and at most
`2^31 - 1` seconds after the post, and every `sendAll` succeeds. The get then
replies `'s'`, sends exactly the ciphertext posted and leaves the directory as
it was before the post. -/
theorem post_then_get_returns (dir0 : List DirEntry) (now t2 : Int) (pid : Nat)
    (u c garbage : List Int) (sendOk : Nat → Bool)
    (hnone : ∀ e ∈ dir0, matchesUser u e = false)
    (hfit : (u ++ cipherInfix ++ ofString (Nat.repr pid)).length ≤ 49)
    (hslash : (47 : Int) ∉ postFilename u pid)
    (hc : ∀ x ∈ c, inAlphabet x) (hlater : now < t2) (hrange : t2 - now ≤ 2147483647)
    (hsend : ∀ k, sendOk k = true) :
    handleGet (handlePost dir0 now pid u c true).dir t2 u garbage sendOk
      = some ⟨0, [Frame.byte 115, Frame.size c.length, Frame.bytes c], dir0⟩ := by
  have hc0 : ∀ x ∈ c, x ≠ 0 := by
    intro x hx h0
    have := hc x hx
    unfold inAlphabet at this
    omega
  have hc10 : ∀ x ∈ c, x ≠ 10 := by
    intro x hx h0
    have := hc x hx
    unfold inAlphabet at this
    omega
  have hmatch := matchesUser_postFilename u pid now (c ++ [10]) hfit
  have hlen : (postFilename u pid).length < 50 := by
    unfold postFilename
    rw [List.length_take]
    omega
  have hnames : ∀ e ∈ dir0, e.name ≠ postFilename u pid := by
    intro e he heq
    have h1 := hnone e he
    have h2 : matchesUser u e = true := by
      simp only [matchesUser, heq]
      simpa only [matchesUser] using hmatch
    rw [h1] at h2
    exact absurd h2 (by decide)
  have hany : dir0.any (fun e => decide (e.name = postFilename u pid)) = false := by
    simp only [List.any_eq_false, decide_eq_true_eq]
    exact hnames
  have hdir : (handlePost dir0 now pid u c true).dir
      = dir0 ++ [⟨postFilename u pid, now, c ++ [10]⟩] := by
    simp [handlePost, writeFile, hany, hslash, cstr_eq_self c hc0]
  have hscan : scan (dir0 ++ [⟨postFilename u pid, now, c ++ [10]⟩]) t2 u garbage
      = some ⟨t2 - now, postFilename u pid, true⟩ := by
    unfold scan
    rw [scanFrom_append, scanFrom_no_match u t2 dir0 _ hnone]
    have hconv : toIntC (t2 - now) = t2 - now := by
      rcases toIntC_cases (t2 - now) with ⟨_, _, h⟩ | ⟨h, _⟩
      · exact h
      · omega
    have hgt : t2 - now > 0 := by omega
    simp [scanFrom, scanStep, hmatch, hconv, hgt, hlen]
  have hfind : (dir0 ++ [(⟨postFilename u pid, now, c ++ [10]⟩ : DirEntry)]).find?
      (fun e => decide (e.name = postFilename u pid))
      = some ⟨postFilename u pid, now, c ++ [10]⟩ := by
    rw [List.find?_append]
    have h0 : dir0.find? (fun e => decide (e.name = postFilename u pid)) = none := by
      rw [List.find?_eq_none]
      intro e he
      simpa using hnames e he
    simp [h0]
  have herase : (dir0 ++ [(⟨postFilename u pid, now, c ++ [10]⟩ : DirEntry)]).eraseP
      (fun e => decide (e.name = postFilename u pid)) = dir0 := by
    rw [List.eraseP_append_right _ (by
      intro b hb
      simpa using hnames b hb)]
    simp
  have hvalid : (c.any badChar) = false := (any_badChar_eq_false_iff c).mpr hc
  rw [hdir]
  unfold handleGet
  simp only [hscan, hfind, getline_append_newline c hc10, List.dropLast_concat, hvalid, hsend,
    herase, if_true, Bool.true_eq_false, Bool.false_eq_true, if_false]

/-- C12. Owner filtering, evaluated on the code. The daemon handles a post of
"ABC" for the user "bobby" (process 7) on an empty directory, then a get for
the different user "bob": the name "bobby@cipher7" passes the filter for
"bob", and the get sends the ciphertext of "bobby" and removes that record. -/
theorem get_takes_record_of_other_user :
    ofString "bob" ≠ ofString "bobby" ∧
      childSession [] 100 7 [] (some 112) (some (ofString "bobby")) (some (ofString "ABC"))
          true (fun _ => true)
        = some ⟨0, [], [⟨postFilename (ofString "bobby") 7, 100, ofString "ABC\n"⟩]⟩ ∧
      matchesUser (ofString "bob") ⟨postFilename (ofString "bobby") 7, 100, ofString "ABC\n"⟩
        = true ∧
      childSession [⟨postFilename (ofString "bobby") 7, 100, ofString "ABC\n"⟩] 200 8 []
          (some 103) (some (ofString "bob")) none true (fun _ => true)
        = some ⟨0, [Frame.byte 115, Frame.size 3, Frame.bytes (ofString "ABC")], []⟩ := by
  decide

/-- C13. Put then take, evaluated on the code, from an empty directory.
(1) A post of "ABC" for a user whose name is 50 letters `'A'` stores the file
under the first 49 of them; the later get for that user replies `'f'`.
(2) A post of "ABC" for "bob" followed by a get for "bob" in the same second
(`st_mtime = time1970`): the get replies `'s'`, then fails to open the file
and exits with status 1 without sending the ciphertext. -/
theorem post_then_get_loses_ciphertext :
    (childSession [] 100 7 [] (some 112) (some (List.replicate 50 65)) (some (ofString "ABC"))
          true (fun _ => true)
        = some ⟨0, [], [⟨List.replicate 49 65, 100, ofString "ABC\n"⟩]⟩ ∧
      childSession [⟨List.replicate 49 65, 100, ofString "ABC\n"⟩] 200 8 [] (some 103)
          (some (List.replicate 50 65)) none true (fun _ => true)
        = some ⟨1, [Frame.byte 102], [⟨List.replicate 49 65, 100, ofString "ABC\n"⟩]⟩) ∧
    (childSession [] 1000 7 [] (some 112) (some (ofString "bob")) (some (ofString "ABC"))
          true (fun _ => true)
        = some ⟨0, [], [⟨ofString "bob@cipher7", 1000, ofString "ABC\n"⟩]⟩ ∧
      childSession [⟨ofString "bob@cipher7", 1000, ofString "ABC\n"⟩] 1000 8 [] (some 103)
          (some (ofString "bob")) none true (fun _ => true)
        = some ⟨1, [Frame.byte 115], [⟨ofString "bob@cipher7", 1000, ofString "ABC\n"⟩]⟩) := by
  decide

/-- C14. Unique record identity, evaluated on the code. For a username of 42
letters `'A'` the name built is the username followed by "@cipher", whatever
the process id: the deposits of processes 1 and 2 get the same file name, and
the second deposit replaces the record of the first. Two usernames of 50
letters that differ in the last one get the same file name as well. -/
theorem long_usernames_share_a_file_name :
    ((1 : Nat) ≠ 2 ∧
      postFilename (List.replicate 42 65) 1 = postFilename (List.replicate 42 65) 2 ∧
      (handlePost (handlePost [] 100 1 (List.replicate 42 65) (ofString "ABC") true).dir
          101 2 (List.replicate 42 65) (ofString "XYZ") true).dir
        = [⟨List.replicate 42 65 ++ ofString "@cipher", 101, ofString "XYZ\n"⟩]) ∧
    (List.replicate 49 65 ++ [66] ≠ List.replicate 49 65 ++ [67] ∧
      postFilename (List.replicate 49 65 ++ [66]) 7
        = postFilename (List.replicate 49 65 ++ [67]) 7) := by
  decide

/-- Outside a successful get the directory is left as it was, and the exit
status is 1. -/
theorem handleGet_exit_cases (dir : List DirEntry) (t : Int) (user garbage : List Int)
    (sendOk : Nat → Bool) (o : GetOutcome)
    (ho : handleGet dir t user garbage sendOk = some o) :
    (o.exit = 1 ∧ o.dir = dir) ∨ o.exit = 0 := by
  unfold handleGet at ho
  cases hs : scan dir t user garbage with
  | none => simp [hs] at ho
  | some st =>
    simp only [hs] at ho
    cases hfound : st.foundUserFile with
    | false =>
      cases hs0 : sendOk 0 <;> simp [hfound, hs0] at ho <;> (subst ho; simp)
    | true =>
      cases hs0 : sendOk 0 with
      | false => simp [hfound, hs0] at ho; subst ho; simp
      | true =>
        cases hfind : dir.find? (fun e => decide (e.name = st.oldestFile)) with
        | none => simp [hfound, hs0, hfind] at ho; subst ho; simp
        | some e =>
          cases hline : getline e.content with
          | none => simp [hfound, hs0, hfind, hline] at ho; subst ho; simp
          | some line =>
            cases hbad : line.dropLast.any badChar with
            | true => simp [hfound, hs0, hfind, hline, hbad] at ho; subst ho; simp
            | false =>
              cases hs1 : sendOk 1 with
              | false =>
                simp [hfound, hs0, hfind, hline, hbad, hs1] at ho; subst ho; simp
              | true =>
                cases hs2 : sendOk 2 with
                | false =>
                  simp [hfound, hs0, hfind, hline, hbad, hs1, hs2] at ho; subst ho; simp
                | true =>
                  simp [hfound, hs0, hfind, hline, hbad, hs1, hs2] at ho; subst ho; simp

/-- A get creates no file: every entry left was there before. -/
theorem handleGet_dir_subset (dir : List DirEntry) (t : Int) (user garbage : List Int)
    (sendOk : Nat → Bool) (o : GetOutcome)
    (ho : handleGet dir t user garbage sendOk = some o) : ∀ e ∈ o.dir, e ∈ dir := by
  rcases handleGet_exit_cases dir t user garbage sendOk o ho with ⟨_, hd⟩ | h0
  · intro e he
    rw [hd] at he
    exact he
  · obtain ⟨st, _, _, _, _, _, _, _, rfl⟩ :=
      handleGet_exit_zero dir t user garbage sendOk o ho h0
    intro e he
    exact List.mem_of_mem_eraseP he

/-- C19, as stated, fails: with the mode byte `'x'` (neither `'p'` nor `'g'`)
and the username "bob", the child runs a get: it replies `'s'`, sends the
ciphertext "HELLO", removes the record and exits with status 0. -/
theorem unknown_mode_runs_get :
    (120 : Int) ≠ 112 ∧ (120 : Int) ≠ 103 ∧
      childSession [⟨ofString "bob@cipher7", 100, ofString "HELLO\n"⟩] 200 8 [] (some 120)
          (some (ofString "bob")) none true (fun _ => true)
        = some ⟨0, [Frame.byte 115, Frame.size 5, Frame.bytes (ofString "HELLO")], []⟩ := by
  decide

/-- C19, amended. Post behaviour is selected only by the mode byte `'p'`; every
other mode byte, `'g'` or not, selects get behaviour: the session is then
exactly a get for the received username (it may send a ciphertext and remove a
record) and creates no record. -/
theorem mode_dispatch (dir : List DirEntry) (now : Int) (pid : Nat) (garbage : List Int)
    (m : Int) (u : List Int) (payload : Option (List Int)) (fopenOk : Bool)
    (sendOk : Nat → Bool) :
    (m ≠ 112 →
        childSession dir now pid garbage (some m) (some u) payload fopenOk sendOk
          = handleGet dir now (cstr u) garbage sendOk ∧
        ∀ o, childSession dir now pid garbage (some m) (some u) payload fopenOk sendOk = some o →
          ∀ e ∈ o.dir, e ∈ dir) ∧
      (m = 112 → ∀ c, payload = some c →
        childSession dir now pid garbage (some m) (some u) payload fopenOk sendOk
          = some (handlePost dir now pid (cstr u) c fopenOk)) := by
  constructor
  · intro hm
    have e : childSession dir now pid garbage (some m) (some u) payload fopenOk sendOk
        = handleGet dir now (cstr u) garbage sendOk := by
      simp [childSession, hm]
    refine ⟨e, ?_⟩
    intro o ho
    rw [e] at ho
    exact handleGet_dir_subset dir now (cstr u) garbage sendOk o ho
  · intro hm c hc
    simp [childSession, hm, hc]

/-- Witness of C19 amended: the mode bytes `'g'` and `'x'` both run the get for
"bob"; the mode byte `'p'` runs the post. -/
theorem mode_dispatch_witness :
    ((103 : Int) ≠ 112 ∧
      childSession [⟨ofString "bob@cipher7", 100, ofString "HELLO\n"⟩] 200 8 [] (some 103)
          (some (ofString "bob")) none true (fun _ => true)
        = handleGet [⟨ofString "bob@cipher7", 100, ofString "HELLO\n"⟩] 200
            (cstr (ofString "bob")) [] (fun _ => true)) ∧
    ((120 : Int) ≠ 112 ∧
      childSession [⟨ofString "bob@cipher7", 100, ofString "HELLO\n"⟩] 200 8 [] (some 120)
          (some (ofString "bob")) none true (fun _ => true)
        = handleGet [⟨ofString "bob@cipher7", 100, ofString "HELLO\n"⟩] 200
            (cstr (ofString "bob")) [] (fun _ => true)) ∧
    childSession [] 200 8 [] (some 112) (some (ofString "bob")) (some (ofString "ABC")) true
        (fun _ => true)
      = some (handlePost [] 200 8 (cstr (ofString "bob")) (ofString "ABC") true) :=
  ⟨⟨by decide,
      ((mode_dispatch [⟨ofString "bob@cipher7", 100, ofString "HELLO\n"⟩] 200 8 [] 103
        (ofString "bob") none true (fun _ => true)).1 (by decide)).1⟩,
    ⟨by decide,
      ((mode_dispatch [⟨ofString "bob@cipher7", 100, ofString "HELLO\n"⟩] 200 8 [] 120
        (ofString "bob") none true (fun _ => true)).1 (by decide)).1⟩,
    (mode_dispatch [] 200 8 [] 112 (ofString "bob") (some (ofString "ABC")) true
      (fun _ => true)).2 rfl (ofString "ABC") rfl⟩

end OTP
